import Mathlib

/-!
Verification development for the in-memory hierarchical filesystem of
`src/main.cpp` (classes `Element`, `File`, `Folder`, `Partition`, `Shortcut`).

The C++ program is embedded shallowly:

* `Entry`/`EList` model the composite tree: a `File` carries a fixed byte
  size, a `Folder` carries an association list of children keyed by the
  upper-cased name (mirroring `std::unordered_map<Key, shared_ptr<const
  Element>>` with `keyFromName`) together with the mutable
  `computedSize_` cache (`Option Nat`), and a `Shortcut` carries the
  identity of its target (mirroring the `weak_ptr` captured from the
  owning `shared_ptr`).  Every constructed element receives a fresh
  identity, modelling object identity: a `weak_ptr` expires exactly when
  the object with that identity has been destroyed.
* `FS` is the whole program state: the partition root (`Partition` is the
  root folder, name "/r1", capacity 10000 bytes), the next fresh
  identity, and the four `Counter<T>` instance counts.
* The public operations `FS.createFile`, `FS.createFolder`,
  `FS.createShortcut`, `FS.removeElement` translate the corresponding
  member functions statement by statement, including the order of the
  checks, the cache invalidation, and the cache refill performed by
  `Partition::checkRemainingSize` through `Folder::getSize`.
* `unsigned` arithmetic is modelled on `Nat` with explicit reduction
  modulo `2^32` (`uadd`, `usub`).
-/

/-- 2^32, the modulus of the C++ `unsigned` type `Size`. -/
def UMAX : Nat := 4294967296

/-- Addition of C++ `unsigned` values (`size += element->getSize()`). -/
def uadd (a b : Nat) : Nat := (a + b) % UMAX

/-- Subtraction of C++ `unsigned` values (`capacity_ - getSize()`). -/
def usub (a b : Nat) : Nat := (a + (UMAX - b % UMAX)) % UMAX

/-- The fixed capacity of the partition: `Partition::getInstance`
constructs `Partition{"/r1", 10'000_bytes}`. -/
def capacity : Nat := 10000

/-- `Folder::keyFromName`: the key of a child is its name upper-cased
character by character (`std::transform(... , toupper)`); sibling-name
lookups are therefore case-insensitive. -/
def keyFromName (n : String) : String := String.mk (n.data.map Char.toUpper)

mutual
/-- A node of the composite tree of `src/main.cpp`.  `file` is a `File`
(fixed size), `shortcut` is a `Shortcut` (identity of its target),
`folder` is a `Folder` (children plus the `computedSize_` cache).  The
first argument of every constructor is the object identity. -/
inductive Entry : Type where
  | file (ident : Nat) (nm : String) (size : Nat)
  | shortcut (ident : Nat) (nm : String) (target : Nat)
  | folder (ident : Nat) (nm : String) (cache : Option Nat) (children : EList)

/-- The children of a folder: an association list from keys
(upper-cased names) to entries, modelling the `unordered_map`. -/
inductive EList : Type where
  | nil
  | cons (key : String) (e : Entry) (rest : EList)
end

/-- Object identity of an entry. -/
def Entry.ident : Entry → Nat
  | .file i _ _ => i
  | .shortcut i _ _ => i
  | .folder i _ _ _ => i

/-- Name of an entry (`Element::name_`). -/
def Entry.nm : Entry → String
  | .file _ n _ => n
  | .shortcut _ n _ => n
  | .folder _ n _ _ => n

/-- Whether an entry is a folder. -/
def Entry.isFolderE : Entry → Bool
  | .folder _ _ _ _ => true
  | _ => false

/-- Lookup of a child by key (`children_.find(key)`). -/
def EList.find : EList → String → Option Entry
  | .nil, _ => none
  | .cons k e rest, key => if k = key then some e else EList.find rest key

/-- Replacement of the child stored at a key (used to push a
modification of a subtree back into its parent). -/
def EList.set : EList → String → Entry → EList
  | .nil, _, _ => .nil
  | .cons k e rest, key, x =>
    if k = key then .cons k x rest else .cons k e (EList.set rest key x)

/-- Insertion of a fresh key (`children_[key].reset(element, ...)` after
`checkNameAvailability` guaranteed the key is absent). -/
def EList.append1 : EList → String → Entry → EList
  | .nil, key, x => .cons key x .nil
  | .cons k e rest, key, x => .cons k e (EList.append1 rest key x)

/-- Removal of the child stored at a key (`children_.erase(key)`). -/
def EList.erase : EList → String → EList
  | .nil, _ => .nil
  | .cons k e rest, key => if k = key then rest else .cons k e (EList.erase rest key)

mutual
/-- The true total size of an entry: the sum of the sizes of all files
beneath it, ignoring the caches.  This is the specification-level
"uncached recursive sum". -/
def plainSize : Entry → Nat
  | .file _ _ s => s
  | .shortcut _ _ _ => 0
  | .folder _ _ _ cs => plainSizeL cs

/-- Sum of `plainSize` over a child list. -/
def plainSizeL : EList → Nat
  | .nil => 0
  | .cons _ e rest => plainSize e + plainSizeL rest
end

mutual
/-- `Element::getSize` as implemented: for a `File` the stored size, for
a `Shortcut` zero, for a `Folder` the cached value if present and
otherwise the `unsigned` sum of the children's `getSize`, which is then
stored in the cache.  Returns the value together with the tree with the
caches it filled. -/
def getSizeE : Entry → Nat × Entry
  | .file i n s => (s, .file i n s)
  | .shortcut i n t => (0, .shortcut i n t)
  | .folder i n c cs =>
    match c with
    | some v => (v, .folder i n (some v) cs)
    | none =>
      let p := getSizeL cs
      (p.1, .folder i n (some p.1) p.2)

/-- The loop `for (auto [_, element] : children_) size += element->getSize()`. -/
def getSizeL : EList → Nat × EList
  | .nil => (0, .nil)
  | .cons k e rest =>
    let p := getSizeE e
    let q := getSizeL rest
    (uadd p.1 q.1, .cons k p.2 q.2)
end

mutual
/-- The identities of all objects alive in a subtree. -/
def ids : Entry → List Nat
  | .file i _ _ => [i]
  | .shortcut i _ _ => [i]
  | .folder i _ _ cs => i :: idsL cs

/-- The identities of all objects alive in a child list. -/
def idsL : EList → List Nat
  | .nil => []
  | .cons _ e rest => ids e ++ idsL rest
end

/-- The dynamic type of a node, used for the `Counter<T>` counts. -/
inductive Kind where
  | kfile
  | kfolder
  | kshortcut

mutual
/-- Number of nodes of a subtree whose kind satisfies `p`.  With `p`
constantly true this is `Counter<Element>`; filtered by kind it is
`Counter<File>`, `Counter<Folder>` and `Counter<Shortcut>`. -/
def cnt (p : Kind → Bool) : Entry → Nat
  | .file _ _ _ => if p .kfile then 1 else 0
  | .shortcut _ _ _ => if p .kshortcut then 1 else 0
  | .folder _ _ _ cs => (if p .kfolder then 1 else 0) + cntL p cs

/-- `cnt` summed over a child list. -/
def cntL (p : Kind → Bool) : EList → Nat
  | .nil => 0
  | .cons _ e rest => cnt p e + cntL p rest
end

/-- Predicate selecting every node: `Counter<Element>`. -/
def anyKind : Kind → Bool := fun _ => true

/-- Predicate selecting files: `Counter<File>`. -/
def isKFile : Kind → Bool
  | .kfile => true
  | _ => false

/-- Predicate selecting folders: `Counter<Folder>`. -/
def isKFolder : Kind → Bool
  | .kfolder => true
  | _ => false

/-- Predicate selecting shortcuts: `Counter<Shortcut>`. -/
def isKShortcut : Kind → Bool
  | .kshortcut => true
  | _ => false

mutual
/-- Erase every `computedSize_` cache of a tree.  Two trees with the
same `stripCaches` image have the same children structure and differ at
most in their caches. -/
def stripCaches : Entry → Entry
  | .file i n s => .file i n s
  | .shortcut i n t => .shortcut i n t
  | .folder i n _ cs => .folder i n none (stripL cs)

/-- `stripCaches` over a child list. -/
def stripL : EList → EList
  | .nil => .nil
  | .cons k e rest => .cons k (stripCaches e) (stripL rest)
end

mutual
/-- `Element::getAbsoluteName` of the object with identity `t`, if that
object is alive in the subtree; `pre` is the absolute name of the
parent followed by "/" (empty for the root, whose name already starts
with "/"). -/
def findAbs : Entry → Nat → String → Option String
  | .file i n _, t, pre => if i = t then some (pre ++ n) else none
  | .shortcut i n _, t, pre => if i = t then some (pre ++ n) else none
  | .folder i n _ cs, t, pre =>
    if i = t then some (pre ++ n) else findAbsL cs t (pre ++ n ++ "/")

/-- `findAbs` over a child list. -/
def findAbsL : EList → Nat → String → Option String
  | .nil, _, _ => none
  | .cons _ e rest, t, pre =>
    match findAbs e t pre with
    | some s => some s
    | none => findAbsL rest t pre
end

/-- Whether an optional entry is a folder. -/
def optIsFolder : Option Entry → Bool
  | some (.folder _ _ _ _) => true
  | _ => false

/-- The element denoted by a path of keys from the given root; `[]`
denotes the root itself.  A path models holding a C++ reference to the
element. -/
def elementAt : Entry → List String → Option Entry
  | e, [] => some e
  | .folder _ _ _ cs, k :: rest =>
    match cs.find k with
    | some c => elementAt c rest
    | none => none
  | _, _ :: _ => none

/-- Whether the path denotes a live folder. -/
def isFolderAt (e : Entry) (p : List String) : Bool := optIsFolder (elementAt e p)

/-- The child stored under key `k` of the folder denoted by the path. -/
def findChildAt (e : Entry) (p : List String) (k : String) : Option Entry :=
  match elementAt e p with
  | some (.folder _ _ _ cs) => cs.find k
  | _ => none

/-- `Folder::invalidateSize` called on the folder denoted by the path:
`computedSize_.reset()` on that folder and, recursively, on every
ancestor up to the partition root — i.e. every folder along the path
loses its cache. -/
def invalidateAlong : Entry → List String → Entry
  | .folder i n _ cs, [] => .folder i n none cs
  | .folder i n _ cs, k :: rest =>
    match cs.find k with
    | some c => .folder i n none (cs.set k (invalidateAlong c rest))
    | none => .folder i n none cs
  | e, _ => e

/-- Insertion of a new child under key `key` of the folder denoted by
the path (no-op on an invalid path; the operations guard the path). -/
def insertAt : Entry → List String → String → Entry → Entry
  | .folder i n c cs, [], key, x => .folder i n c (cs.append1 key x)
  | .folder i n c cs, k :: rest, key, x =>
    match cs.find k with
    | some child => .folder i n c (cs.set k (insertAt child rest key x))
    | none => .folder i n c cs
  | e, _, _, _ => e

/-- Removal of the child stored under key `key` of the folder denoted by
the path. -/
def eraseAt : Entry → List String → String → Entry
  | .folder i n c cs, [], key => .folder i n c (cs.erase key)
  | .folder i n c cs, k :: rest, key =>
    match cs.find k with
    | some child => .folder i n c (cs.set k (eraseAt child rest key))
    | none => .folder i n c cs
  | e, _, _ => e

/-- The single exception type of the program: `std::domain_error`
carrying a message. -/
structure DomainError where
  msg : String
deriving DecidableEq, Repr

/-- Outcome of one public operation.  `invalidCall` marks a call that
C++ could not even express (a path that does not denote a live folder,
a shortcut target that does not denote a live element); it corresponds
to no behaviour of the program. -/
inductive OpResult where
  | ok
  | threw (e : DomainError)
  | invalidCall
deriving DecidableEq, Repr

/-- The whole program state: the partition tree, the next fresh object
identity, and the four `Counter<T>` counts. -/
structure FS where
  root : Entry
  nextId : Nat
  nbElement : Nat
  nbFile : Nat
  nbFolder : Nat
  nbShortcut : Nat

/-- `Folder::createFile` on the folder denoted by `path`, translated
statement by statement: (1) if the size is nonzero, `invalidateSize()`;
(2) `checkNameAvailability` — throw "already exists" on a key clash;
(3) the `Element` constructor — throw "invalid name." on an empty name;
(4) `File::File` calls `Partition::checkRemainingSize(size)`, which
reads `getSize()` of the partition (filling caches) and throws
"capacity overflow." when `capacity_ - getSize() < size` in `unsigned`
arithmetic; (5) only then is the file inserted into the children. -/
def FS.createFile (fs : FS) (path : List String) (name : String) (size : Nat) :
    FS × OpResult :=
  if ¬ isFolderAt fs.root path then (fs, .invalidCall) else
  if (findChildAt (if size % UMAX ≠ 0 then invalidateAlong fs.root path else fs.root)
      path (keyFromName name)).isSome then
    ({ fs with root := if size % UMAX ≠ 0 then invalidateAlong fs.root path else fs.root },
      .threw ⟨name ++ " already exists."⟩)
  else if name = "" then
    ({ fs with root := if size % UMAX ≠ 0 then invalidateAlong fs.root path else fs.root },
      .threw ⟨"invalid name."⟩)
  else if usub capacity (getSizeE (if size % UMAX ≠ 0 then invalidateAlong fs.root path
      else fs.root)).1 < size % UMAX then
    ({ fs with root := (getSizeE (if size % UMAX ≠ 0 then invalidateAlong fs.root path
        else fs.root)).2 }, .threw ⟨"capacity overflow."⟩)
  else
    ({ fs with
       root := insertAt (getSizeE (if size % UMAX ≠ 0 then invalidateAlong fs.root path
          else fs.root)).2 path (keyFromName name) (.file fs.nextId name (size % UMAX)),
       nextId := fs.nextId + 1,
       nbElement := fs.nbElement + 1,
       nbFile := fs.nbFile + 1 }, .ok)

/-- `Folder::createFolder` on the folder denoted by `path`: name
availability check, empty-name check, then insertion of an empty folder
with no cached size.  No cache is touched and no capacity check runs. -/
def FS.createFolder (fs : FS) (path : List String) (name : String) :
    FS × OpResult :=
  if ¬ isFolderAt fs.root path then (fs, .invalidCall) else
  if (findChildAt fs.root path (keyFromName name)).isSome then
    (fs, .threw ⟨name ++ " already exists."⟩)
  else if name = "" then
    (fs, .threw ⟨"invalid name."⟩)
  else
    ({ fs with
       root := insertAt fs.root path (keyFromName name) (.folder fs.nextId name none .nil),
       nextId := fs.nextId + 1,
       nbElement := fs.nbElement + 1,
       nbFolder := fs.nbFolder + 1 }, .ok)

/-- `Folder::createShortcut` on the folder denoted by `path`, targeting
the live element denoted by `targetPath`: name availability check,
empty-name check, then insertion of a shortcut holding the target's
identity (the `weak_ptr` obtained from `target.getSharedPtr()`).  No
cache is touched and no capacity check runs. -/
def FS.createShortcut (fs : FS) (path : List String) (name : String)
    (targetPath : List String) : FS × OpResult :=
  if ¬ isFolderAt fs.root path then (fs, .invalidCall) else
  match elementAt fs.root targetPath with
  | none => (fs, .invalidCall)
  | some target =>
    if (findChildAt fs.root path (keyFromName name)).isSome then
      (fs, .threw ⟨name ++ " already exists."⟩)
    else if name = "" then
      (fs, .threw ⟨"invalid name."⟩)
    else
      ({ fs with
         root := insertAt fs.root path (keyFromName name)
           (.shortcut fs.nextId name target.ident),
         nextId := fs.nextId + 1,
         nbElement := fs.nbElement + 1,
         nbShortcut := fs.nbShortcut + 1 }, .ok)

/-- `Folder::removeElement` on the folder denoted by `path`: throw
"does not exist." (leaving everything unchanged) when the key is
absent; otherwise `invalidateSize()` and erase the child, destroying
its whole subtree — each destroyed object decrements its counters. -/
def FS.removeElement (fs : FS) (path : List String) (name : String) :
    FS × OpResult :=
  if ¬ isFolderAt fs.root path then (fs, .invalidCall) else
  match findChildAt fs.root path (keyFromName name) with
  | none => (fs, .threw ⟨name ++ " does not exist."⟩)
  | some removed =>
    ({ root := eraseAt (invalidateAlong fs.root path) path (keyFromName name),
       nextId := fs.nextId,
       nbElement := fs.nbElement - cnt anyKind removed,
       nbFile := fs.nbFile - cnt isKFile removed,
       nbFolder := fs.nbFolder - cnt isKFolder removed,
       nbShortcut := fs.nbShortcut - cnt isKShortcut removed }, .ok)

/-- One public mutating operation, as listed in the claims. -/
inductive Op where
  | mkFile (path : List String) (name : String) (size : Nat)
  | mkFolder (path : List String) (name : String)
  | mkShortcut (path : List String) (name : String) (targetPath : List String)
  | rmElement (path : List String) (name : String)

/-- Apply one operation, keeping the state it left behind (also on a
thrown exception, whose partial side effects persist). -/
def FS.applyOp (fs : FS) : Op → FS
  | .mkFile p n s => (fs.createFile p n s).1
  | .mkFolder p n => (fs.createFolder p n).1
  | .mkShortcut p n t => (fs.createShortcut p n t).1
  | .rmElement p n => (fs.removeElement p n).1

/-- Apply a sequence of operations from left to right. -/
def FS.run (fs : FS) : List Op → FS
  | [] => fs
  | op :: ops => (fs.applyOp op).run ops

/-- The state right after `Partition::getInstance` constructed the
singleton `Partition{"/r1", 10'000_bytes}`: an empty root folder with
identity 0, counted once as an `Element` and once as a `Folder`. -/
def initFS : FS :=
  { root := .folder 0 "/r1" none .nil,
    nextId := 1,
    nbElement := 1,
    nbFile := 0,
    nbFolder := 1,
    nbShortcut := 0 }

/-- `Shortcut::onElementDisplayed` for a shortcut whose target has
identity `t`: lock the weak handle and print the target's absolute name
when it is alive, "inexisting element" when it has expired. -/
def shortcutDisplayText (fs : FS) (t : Nat) : String :=
  match findAbs fs.root t "" with
  | some abs => " --> " ++ abs
  | none => " --> " ++ "inexisting element"

/-! ## Cache erasure: trees equal up to caches

`invalidateAlong` and the cache refill of `getSizeE` change only the
`computedSize_` fields.  `stripCaches` factors this out: the lemmas
below show both functions leave the `stripCaches` image unchanged, and
that the structural observers (`plainSize`, `ids`, `cnt`, `elementAt`,
`findChildAt`, `isFolderAt`) only depend on that image. -/

mutual
theorem plainSize_strip : ∀ e : Entry, plainSize (stripCaches e) = plainSize e
  | .file _ _ _ => rfl
  | .shortcut _ _ _ => rfl
  | .folder _ _ _ cs => by
    simp [stripCaches, plainSize, plainSizeL_strip cs]

theorem plainSizeL_strip : ∀ cs : EList, plainSizeL (stripL cs) = plainSizeL cs
  | .nil => rfl
  | .cons _ e rest => by
    simp [stripL, plainSizeL, plainSize_strip e, plainSizeL_strip rest]
end

mutual
theorem ids_strip : ∀ e : Entry, ids (stripCaches e) = ids e
  | .file _ _ _ => rfl
  | .shortcut _ _ _ => rfl
  | .folder _ _ _ cs => by
    simp [stripCaches, ids, idsL_strip cs]

theorem idsL_strip : ∀ cs : EList, idsL (stripL cs) = idsL cs
  | .nil => rfl
  | .cons _ e rest => by
    simp [stripL, idsL, ids_strip e, idsL_strip rest]
end

mutual
theorem cnt_strip (p : Kind → Bool) : ∀ e : Entry, cnt p (stripCaches e) = cnt p e
  | .file _ _ _ => rfl
  | .shortcut _ _ _ => rfl
  | .folder _ _ _ cs => by
    simp [stripCaches, cnt, cntL_strip p cs]

theorem cntL_strip (p : Kind → Bool) : ∀ cs : EList, cntL p (stripL cs) = cntL p cs
  | .nil => rfl
  | .cons _ e rest => by
    simp [stripL, cntL, cnt_strip p e, cntL_strip p rest]
end

mutual
theorem stripCaches_getSizeE : ∀ e : Entry, stripCaches (getSizeE e).2 = stripCaches e
  | .file _ _ _ => rfl
  | .shortcut _ _ _ => rfl
  | .folder _ _ c cs => by
    cases c with
    | some v => simp [getSizeE]
    | none => simp [getSizeE, stripCaches, stripL_getSizeL cs]

theorem stripL_getSizeL : ∀ cs : EList, stripL (getSizeL cs).2 = stripL cs
  | .nil => rfl
  | .cons _ e rest => by
    simp [getSizeL, stripL, stripCaches_getSizeE e, stripL_getSizeL rest]
end

theorem find_stripL (k : String) :
    ∀ cs : EList, (stripL cs).find k = (cs.find k).map stripCaches
  | .nil => rfl
  | .cons k0 e rest => by
    by_cases h : k0 = k <;> simp [stripL, EList.find, h, find_stripL k rest]

theorem stripL_set_congr {k : String} {c x : Entry} :
    ∀ cs : EList, cs.find k = some c → stripCaches x = stripCaches c →
      stripL (cs.set k x) = stripL cs
  | .nil, h, _ => by simp [EList.find] at h
  | .cons k0 e rest, h, hx => by
    by_cases hk : k0 = k
    · simp [EList.find, hk] at h
      simp [EList.set, hk, stripL, hx, h]
    · simp [EList.find, hk] at h
      simp [EList.set, hk, stripL, stripL_set_congr rest h hx]

theorem stripCaches_invalidateAlong : ∀ (q : List String) (e : Entry),
    stripCaches (invalidateAlong e q) = stripCaches e
  | [], e => by
    cases e <;> simp [invalidateAlong, stripCaches]
  | k :: rest, e => by
    cases e with
    | file => simp [invalidateAlong]
    | shortcut => simp [invalidateAlong]
    | folder i n c cs =>
      cases hf : cs.find k with
      | none => simp [invalidateAlong, hf, stripCaches]
      | some child =>
        simp [invalidateAlong, hf, stripCaches,
          stripL_set_congr cs hf (stripCaches_invalidateAlong rest child)]

theorem elementAt_strip : ∀ (p : List String) (e : Entry),
    elementAt (stripCaches e) p = (elementAt e p).map stripCaches
  | [], e => by cases e <;> simp [elementAt, stripCaches]
  | k :: rest, e => by
    cases e with
    | file => simp [elementAt, stripCaches]
    | shortcut => simp [elementAt, stripCaches]
    | folder i n c cs =>
      cases hf : cs.find k with
      | none => simp [elementAt, stripCaches, find_stripL, hf]
      | some child =>
        simp [elementAt, stripCaches, find_stripL, hf, elementAt_strip rest child]

theorem optIsFolder_map_strip (o : Option Entry) :
    optIsFolder (o.map stripCaches) = optIsFolder o := by
  cases o with
  | none => rfl
  | some e => cases e <;> rfl

theorem isFolderAt_congr {e1 e2 : Entry} (h : stripCaches e1 = stripCaches e2)
    (p : List String) : isFolderAt e1 p = isFolderAt e2 p := by
  have h1 := elementAt_strip p e1
  have h2 := elementAt_strip p e2
  rw [h] at h1
  unfold isFolderAt
  rw [← optIsFolder_map_strip (elementAt e1 p), ← optIsFolder_map_strip (elementAt e2 p),
    ← h1, ← h2]

theorem findChildAt_strip (p : List String) (k : String) (e : Entry) :
    findChildAt (stripCaches e) p k = (findChildAt e p k).map stripCaches := by
  unfold findChildAt
  rw [elementAt_strip]
  cases elementAt e p with
  | none => rfl
  | some x => cases x <;> simp [stripCaches, find_stripL]

theorem findChildAt_congr {e1 e2 : Entry} (h : stripCaches e1 = stripCaches e2)
    (p : List String) (k : String) :
    (findChildAt e1 p k).map stripCaches = (findChildAt e2 p k).map stripCaches := by
  rw [← findChildAt_strip, ← findChildAt_strip, h]

theorem plainSize_congr {e1 e2 : Entry} (h : stripCaches e1 = stripCaches e2) :
    plainSize e1 = plainSize e2 := by
  rw [← plainSize_strip e1, ← plainSize_strip e2, h]

theorem ids_congr {e1 e2 : Entry} (h : stripCaches e1 = stripCaches e2) :
    ids e1 = ids e2 := by
  rw [← ids_strip e1, ← ids_strip e2, h]

theorem cnt_congr (p : Kind → Bool) {e1 e2 : Entry}
    (h : stripCaches e1 = stripCaches e2) : cnt p e1 = cnt p e2 := by
  rw [← cnt_strip p e1, ← cnt_strip p e2, h]

/-! ## Structural effect of insertion and removal -/

theorem isFolderAt_file (i : Nat) (n : String) (s : Nat) (p : List String) :
    isFolderAt (.file i n s) p = false := by cases p <;> rfl

theorem isFolderAt_shortcut (i : Nat) (n : String) (t : Nat) (p : List String) :
    isFolderAt (.shortcut i n t) p = false := by cases p <;> rfl

theorem isFolderAt_cons {i : Nat} {n : String} {c : Option Nat} {cs : EList}
    {k : String} {rest : List String}
    (h : isFolderAt (.folder i n c cs) (k :: rest) = true) :
    ∃ child, cs.find k = some child ∧ isFolderAt child rest = true := by
  unfold isFolderAt at h
  cases hf : cs.find k with
  | none => simp [elementAt, hf, optIsFolder] at h
  | some child =>
    refine ⟨child, rfl, ?_⟩
    simpa [isFolderAt, elementAt, hf] using h

theorem findChildAt_cons {i : Nat} {n : String} {c : Option Nat} {cs : EList}
    {k : String} {rest : List String} {key : String} {child : Entry}
    (hf : cs.find k = some child) :
    findChildAt (.folder i n c cs) (k :: rest) key = findChildAt child rest key := by
  simp [findChildAt, elementAt, hf]

theorem plainSizeL_append1 (k : String) (x : Entry) :
    ∀ cs : EList, plainSizeL (cs.append1 k x) = plainSizeL cs + plainSize x
  | .nil => by simp [EList.append1, plainSizeL]
  | .cons k0 e rest => by
    simp [EList.append1, plainSizeL, plainSizeL_append1 k x rest]
    omega

theorem idsL_append1 (k : String) (x : Entry) :
    ∀ cs : EList, idsL (cs.append1 k x) = idsL cs ++ ids x
  | .nil => by simp [EList.append1, idsL]
  | .cons k0 e rest => by
    simp [EList.append1, idsL, idsL_append1 k x rest]

theorem cntL_append1 (p : Kind → Bool) (k : String) (x : Entry) :
    ∀ cs : EList, cntL p (cs.append1 k x) = cntL p cs + cnt p x
  | .nil => by simp [EList.append1, cntL]
  | .cons k0 e rest => by
    simp [EList.append1, cntL, cntL_append1 p k x rest]
    omega

theorem plainSizeL_set {k : String} {c x : Entry} :
    ∀ cs : EList, cs.find k = some c →
      plainSizeL (cs.set k x) + plainSize c = plainSizeL cs + plainSize x
  | .nil, h => by simp [EList.find] at h
  | .cons k0 e rest, h => by
    by_cases hk : k0 = k
    · simp [EList.find, hk] at h
      subst h
      simp [EList.set, hk, plainSizeL]
      omega
    · simp [EList.find, hk] at h
      have := plainSizeL_set (x := x) rest h
      simp [EList.set, hk, plainSizeL]
      omega

theorem idsL_set_count {k : String} {c x : Entry} (t : Nat) :
    ∀ cs : EList, cs.find k = some c →
      (idsL (cs.set k x)).count t + (ids c).count t
        = (idsL cs).count t + (ids x).count t
  | .nil, h => by simp [EList.find] at h
  | .cons k0 e rest, h => by
    by_cases hk : k0 = k
    · simp [EList.find, hk] at h
      subst h
      simp [EList.set, hk, idsL, List.count_append]
      omega
    · simp [EList.find, hk] at h
      have := idsL_set_count (x := x) t rest h
      simp [EList.set, hk, idsL, List.count_append]
      omega

theorem cntL_set (p : Kind → Bool) {k : String} {c x : Entry} :
    ∀ cs : EList, cs.find k = some c →
      cntL p (cs.set k x) + cnt p c = cntL p cs + cnt p x
  | .nil, h => by simp [EList.find] at h
  | .cons k0 e rest, h => by
    by_cases hk : k0 = k
    · simp [EList.find, hk] at h
      subst h
      simp [EList.set, hk, cntL]
      omega
    · simp [EList.find, hk] at h
      have := cntL_set (x := x) p rest h
      simp [EList.set, hk, cntL]
      omega

theorem plainSizeL_erase {k : String} {c : Entry} :
    ∀ cs : EList, cs.find k = some c →
      plainSizeL (cs.erase k) + plainSize c = plainSizeL cs
  | .nil, h => by simp [EList.find] at h
  | .cons k0 e rest, h => by
    by_cases hk : k0 = k
    · simp [EList.find, hk] at h
      subst h
      simp [EList.erase, hk, plainSizeL]
      omega
    · simp [EList.find, hk] at h
      have := plainSizeL_erase rest h
      simp [EList.erase, hk, plainSizeL]
      omega

theorem idsL_erase_count {k : String} {c : Entry} (t : Nat) :
    ∀ cs : EList, cs.find k = some c →
      (idsL (cs.erase k)).count t + (ids c).count t = (idsL cs).count t
  | .nil, h => by simp [EList.find] at h
  | .cons k0 e rest, h => by
    by_cases hk : k0 = k
    · simp [EList.find, hk] at h
      subst h
      simp [EList.erase, hk, idsL, List.count_append]
      omega
    · simp [EList.find, hk] at h
      have := idsL_erase_count t rest h
      simp [EList.erase, hk, idsL, List.count_append]
      omega

theorem cntL_erase (p : Kind → Bool) {k : String} {c : Entry} :
    ∀ cs : EList, cs.find k = some c →
      cntL p (cs.erase k) + cnt p c = cntL p cs
  | .nil, h => by simp [EList.find] at h
  | .cons k0 e rest, h => by
    by_cases hk : k0 = k
    · simp [EList.find, hk] at h
      subst h
      simp [EList.erase, hk, cntL]
      omega
    · simp [EList.find, hk] at h
      have := cntL_erase p rest h
      simp [EList.erase, hk, cntL]
      omega

theorem plainSize_insertAt (key : String) (x : Entry) :
    ∀ (p : List String) (e : Entry), isFolderAt e p = true →
      plainSize (insertAt e p key x) = plainSize e + plainSize x
  | [], e, h => by
    cases e with
    | file i n s => rw [isFolderAt_file] at h; cases h
    | shortcut i n t => rw [isFolderAt_shortcut] at h; cases h
    | folder i n c cs => simp [insertAt, plainSize, plainSizeL_append1]
  | k :: rest, e, h => by
    cases e with
    | file i n s => rw [isFolderAt_file] at h; cases h
    | shortcut i n t => rw [isFolderAt_shortcut] at h; cases h
    | folder i n c cs =>
      obtain ⟨child, hf, hrec⟩ := isFolderAt_cons h
      have hins := plainSize_insertAt key x rest child hrec
      have hset := plainSizeL_set (x := insertAt child rest key x) cs hf
      simp [insertAt, hf, plainSize]
      omega

theorem count_ids_insertAt (key : String) (x : Entry) (t : Nat) :
    ∀ (p : List String) (e : Entry), isFolderAt e p = true →
      (ids (insertAt e p key x)).count t = (ids e).count t + (ids x).count t
  | [], e, h => by
    cases e with
    | file i n s => rw [isFolderAt_file] at h; cases h
    | shortcut i n t' => rw [isFolderAt_shortcut] at h; cases h
    | folder i n c cs =>
      simp [insertAt, ids, idsL_append1, List.count_cons, List.count_append]
      omega
  | k :: rest, e, h => by
    cases e with
    | file i n s => rw [isFolderAt_file] at h; cases h
    | shortcut i n t' => rw [isFolderAt_shortcut] at h; cases h
    | folder i n c cs =>
      obtain ⟨child, hf, hrec⟩ := isFolderAt_cons h
      have hins := count_ids_insertAt key x t rest child hrec
      have hset := idsL_set_count (x := insertAt child rest key x) t cs hf
      simp [insertAt, hf, ids, List.count_cons]
      omega

theorem cnt_insertAt (q : Kind → Bool) (key : String) (x : Entry) :
    ∀ (p : List String) (e : Entry), isFolderAt e p = true →
      cnt q (insertAt e p key x) = cnt q e + cnt q x
  | [], e, h => by
    cases e with
    | file i n s => rw [isFolderAt_file] at h; cases h
    | shortcut i n t => rw [isFolderAt_shortcut] at h; cases h
    | folder i n c cs =>
      simp [insertAt, cnt, cntL_append1]
      omega
  | k :: rest, e, h => by
    cases e with
    | file i n s => rw [isFolderAt_file] at h; cases h
    | shortcut i n t => rw [isFolderAt_shortcut] at h; cases h
    | folder i n c cs =>
      obtain ⟨child, hf, hrec⟩ := isFolderAt_cons h
      have hins := cnt_insertAt q key x rest child hrec
      have hset := cntL_set q (x := insertAt child rest key x) cs hf
      simp [insertAt, hf, cnt]
      omega

theorem plainSize_eraseAt {key : String} {c : Entry} :
    ∀ (p : List String) (e : Entry), findChildAt e p key = some c →
      plainSize (eraseAt e p key) + plainSize c = plainSize e
  | [], e, h => by
    cases e with
    | file i n s => simp [findChildAt, elementAt] at h
    | shortcut i n t => simp [findChildAt, elementAt] at h
    | folder i n cc cs =>
      simp [findChildAt, elementAt] at h
      simp [eraseAt, plainSize, plainSizeL_erase cs h]
  | k :: rest, e, h => by
    cases e with
    | file i n s => simp [findChildAt, elementAt] at h
    | shortcut i n t => simp [findChildAt, elementAt] at h
    | folder i n cc cs =>
      cases hf : cs.find k with
      | none => rw [findChildAt, elementAt] at h; simp [hf] at h
      | some child =>
        rw [findChildAt_cons hf] at h
        have hrec := plainSize_eraseAt rest child h
        have hset := plainSizeL_set (x := eraseAt child rest key) cs hf
        simp [eraseAt, hf, plainSize]
        omega

theorem count_ids_eraseAt {key : String} {c : Entry} (t : Nat) :
    ∀ (p : List String) (e : Entry), findChildAt e p key = some c →
      (ids (eraseAt e p key)).count t + (ids c).count t = (ids e).count t
  | [], e, h => by
    cases e with
    | file i n s => simp [findChildAt, elementAt] at h
    | shortcut i n t' => simp [findChildAt, elementAt] at h
    | folder i n cc cs =>
      simp [findChildAt, elementAt] at h
      have := idsL_erase_count (c := c) t cs h
      simp [eraseAt, ids, List.count_cons]
      omega
  | k :: rest, e, h => by
    cases e with
    | file i n s => simp [findChildAt, elementAt] at h
    | shortcut i n t' => simp [findChildAt, elementAt] at h
    | folder i n cc cs =>
      cases hf : cs.find k with
      | none => rw [findChildAt, elementAt] at h; simp [hf] at h
      | some child =>
        rw [findChildAt_cons hf] at h
        have hrec := count_ids_eraseAt t rest child h
        have hset := idsL_set_count (x := eraseAt child rest key) t cs hf
        simp [eraseAt, hf, ids, List.count_cons]
        omega

theorem cnt_eraseAt (q : Kind → Bool) {key : String} {c : Entry} :
    ∀ (p : List String) (e : Entry), findChildAt e p key = some c →
      cnt q (eraseAt e p key) + cnt q c = cnt q e
  | [], e, h => by
    cases e with
    | file i n s => simp [findChildAt, elementAt] at h
    | shortcut i n t => simp [findChildAt, elementAt] at h
    | folder i n cc cs =>
      simp [findChildAt, elementAt] at h
      have := cntL_erase q (c := c) cs h
      simp [eraseAt, cnt]
      omega
  | k :: rest, e, h => by
    cases e with
    | file i n s => simp [findChildAt, elementAt] at h
    | shortcut i n t => simp [findChildAt, elementAt] at h
    | folder i n cc cs =>
      cases hf : cs.find k with
      | none => rw [findChildAt, elementAt] at h; simp [hf] at h
      | some child =>
        rw [findChildAt_cons hf] at h
        have hrec := cnt_eraseAt q rest child h
        have hset := cntL_set q (x := eraseAt child rest key) cs hf
        simp [eraseAt, hf, cnt]
        omega

/-- The root is the partition: the folder with identity 0 and name
"/r1" constructed by `Partition::getInstance`. -/
def goodRoot (e : Entry) : Prop := ∃ c cs, e = .folder 0 "/r1" c cs

theorem goodRoot_insertAt {e : Entry} {p : List String} {key : String} {x : Entry}
    (h : goodRoot e) : goodRoot (insertAt e p key x) := by
  obtain ⟨c, cs, rfl⟩ := h
  cases p with
  | nil => exact ⟨c, cs.append1 key x, rfl⟩
  | cons k rest =>
    cases hf : cs.find k with
    | none => exact ⟨c, cs, by simp [insertAt, hf]⟩
    | some child => exact ⟨c, cs.set k (insertAt child rest key x), by simp [insertAt, hf]⟩

theorem goodRoot_eraseAt {e : Entry} {p : List String} {key : String}
    (h : goodRoot e) : goodRoot (eraseAt e p key) := by
  obtain ⟨c, cs, rfl⟩ := h
  cases p with
  | nil => exact ⟨c, cs.erase key, rfl⟩
  | cons k rest =>
    cases hf : cs.find k with
    | none => exact ⟨c, cs, by simp [eraseAt, hf]⟩
    | some child => exact ⟨c, cs.set k (eraseAt child rest key), by simp [eraseAt, hf]⟩

theorem goodRoot_invalidateAlong {e : Entry} {p : List String}
    (h : goodRoot e) : goodRoot (invalidateAlong e p) := by
  obtain ⟨c, cs, rfl⟩ := h
  cases p with
  | nil => exact ⟨none, cs, rfl⟩
  | cons k rest =>
    cases hf : cs.find k with
    | none => exact ⟨none, cs, by simp [invalidateAlong, hf]⟩
    | some child =>
      exact ⟨none, cs.set k (invalidateAlong child rest), by simp [invalidateAlong, hf]⟩

theorem goodRoot_getSizeE {e : Entry} (h : goodRoot e) : goodRoot (getSizeE e).2 := by
  obtain ⟨c, cs, rfl⟩ := h
  cases c with
  | some v => exact ⟨some v, cs, by simp [getSizeE]⟩
  | none => exact ⟨some (getSizeL cs).1, (getSizeL cs).2, by simp [getSizeE]⟩

/-! ## The reachable-state invariant

Object identities in the tree are distinct and below `nextId`, the four
counters equal the number of live nodes of their kind, and the root is
the partition folder. -/

/-- Invariant of every reachable program state. -/
def FsInv (fs : FS) : Prop :=
  (∀ t, (ids fs.root).count t ≤ 1) ∧
  (∀ t, t ∈ ids fs.root → t < fs.nextId) ∧
  fs.nbElement = cnt anyKind fs.root ∧
  fs.nbFile = cnt isKFile fs.root ∧
  fs.nbFolder = cnt isKFolder fs.root ∧
  fs.nbShortcut = cnt isKShortcut fs.root ∧
  goodRoot fs.root

theorem count_eq_zero_of_lt {l : List Nat} {n : Nat} (h : ∀ t ∈ l, t < n) :
    l.count n = 0 :=
  List.count_eq_zero.mpr (fun hmem => absurd (h n hmem) (lt_irrefl n))

theorem FsInv_initFS : FsInv initFS := by
  refine ⟨?_, ?_, by decide, by decide, by decide, by decide, ⟨none, .nil, rfl⟩⟩
  · intro t
    show ([0] : List Nat).count t ≤ 1
    rw [List.count_singleton']
    split <;> omega
  · intro t hmem
    show t < 1
    have : t = 0 := by simpa [initFS, ids, idsL] using hmem
    omega

theorem goodRoot_of_strip {e1 e2 : Entry} (hstrip : stripCaches e1 = stripCaches e2)
    (h : goodRoot e2) : goodRoot e1 := by
  obtain ⟨c, cs, rfl⟩ := h
  cases e1 with
  | file i n s => simp [stripCaches] at hstrip
  | shortcut i n t => simp [stripCaches] at hstrip
  | folder i n c' cs' =>
    simp [stripCaches] at hstrip
    exact ⟨c', cs', by rw [hstrip.1, hstrip.2.1]⟩

theorem FsInv_stripSame {fs : FS} {r : Entry} (h : FsInv fs)
    (hstrip : stripCaches r = stripCaches fs.root) :
    FsInv { fs with root := r } := by
  obtain ⟨h1, h2, h3, h4, h5, h6, h7⟩ := h
  refine ⟨?_, ?_, ?_, ?_, ?_, ?_, ?_⟩
  · intro t
    show (ids r).count t ≤ 1
    rw [ids_congr hstrip]
    exact h1 t
  · intro t hmem
    show t < fs.nextId
    rw [ids_congr hstrip] at hmem
    exact h2 t hmem
  · show fs.nbElement = cnt anyKind r
    rw [cnt_congr _ hstrip]
    exact h3
  · show fs.nbFile = cnt isKFile r
    rw [cnt_congr _ hstrip]
    exact h4
  · show fs.nbFolder = cnt isKFolder r
    rw [cnt_congr _ hstrip]
    exact h5
  · show fs.nbShortcut = cnt isKShortcut r
    rw [cnt_congr _ hstrip]
    exact h6
  · exact goodRoot_of_strip hstrip h7

theorem insert_fresh_facts {fs : FS} (hInv : FsInv fs) (base x : Entry)
    (path : List String) (key : String)
    (hstrip : stripCaches base = stripCaches fs.root)
    (hpath : isFolderAt fs.root path = true)
    (hids : ids x = [fs.nextId]) :
    (∀ t, (ids (insertAt base path key x)).count t ≤ 1) ∧
    (∀ t, t ∈ ids (insertAt base path key x) → t < fs.nextId + 1) ∧
    (∀ q : Kind → Bool, cnt q (insertAt base path key x) = cnt q fs.root + cnt q x) := by
  obtain ⟨hnd, hlt, _, _, _, _, _⟩ := hInv
  have hpb : isFolderAt base path = true := by
    rw [isFolderAt_congr hstrip]
    exact hpath
  have hcount : ∀ t, (ids (insertAt base path key x)).count t
      = (ids fs.root).count t + (([fs.nextId] : List Nat)).count t := by
    intro t
    rw [count_ids_insertAt key x t path base hpb, ids_congr hstrip, hids]
  refine ⟨?_, ?_, ?_⟩
  · intro t
    rw [hcount t, List.count_singleton']
    by_cases ht : fs.nextId = t
    · subst ht
      have hz : (ids fs.root).count fs.nextId = 0 := count_eq_zero_of_lt hlt
      simp [hz]
    · simp only [ht, if_false]
      have := hnd t
      omega
  · intro t hmem
    have hpos : 0 < (ids (insertAt base path key x)).count t :=
      List.count_pos_iff.mpr hmem
    rw [hcount t, List.count_singleton'] at hpos
    by_cases ht : fs.nextId = t
    · omega
    · simp only [ht, if_false] at hpos
      have : t ∈ ids fs.root := List.count_pos_iff.mp (by omega)
      have := hlt t this
      omega
  · intro q
    rw [cnt_insertAt q key x path base hpb, cnt_congr q hstrip]

theorem FsInv_createFolder (fs : FS) (path : List String) (name : String)
    (h : FsInv fs) : FsInv (fs.createFolder path name).1 := by
  obtain ⟨h1, h2, h3, h4, h5, h6, h7⟩ := h
  unfold FS.createFolder
  split
  · exact ⟨h1, h2, h3, h4, h5, h6, h7⟩
  next hp =>
    rw [not_not] at hp
    by_cases hdup : (findChildAt fs.root path (keyFromName name)).isSome = true
    · rw [if_pos hdup]
      exact ⟨h1, h2, h3, h4, h5, h6, h7⟩
    · rw [if_neg hdup]
      by_cases hname : name = ""
      · rw [if_pos hname]
        exact ⟨h1, h2, h3, h4, h5, h6, h7⟩
      · rw [if_neg hname]
        obtain ⟨hc1, hc2, hc3⟩ := insert_fresh_facts ⟨h1, h2, h3, h4, h5, h6, h7⟩ fs.root
          (.folder fs.nextId name none .nil) path (keyFromName name) rfl hp rfl
        refine ⟨hc1, hc2, ?_, ?_, ?_, ?_, goodRoot_insertAt h7⟩
        · show fs.nbElement + 1
            = cnt anyKind (insertAt fs.root path (keyFromName name)
                (.folder fs.nextId name none .nil))
          rw [hc3 anyKind, h3]
          simp [cnt, cntL, anyKind]
        · show fs.nbFile
            = cnt isKFile (insertAt fs.root path (keyFromName name)
                (.folder fs.nextId name none .nil))
          rw [hc3 isKFile, h4]
          simp [cnt, cntL, isKFile]
        · show fs.nbFolder + 1
            = cnt isKFolder (insertAt fs.root path (keyFromName name)
                (.folder fs.nextId name none .nil))
          rw [hc3 isKFolder, h5]
          simp [cnt, cntL, isKFolder]
        · show fs.nbShortcut
            = cnt isKShortcut (insertAt fs.root path (keyFromName name)
                (.folder fs.nextId name none .nil))
          rw [hc3 isKShortcut, h6]
          simp [cnt, cntL, isKShortcut]

theorem cnt_file_val (q : Kind → Bool) (i : Nat) (n : String) (s : Nat) :
    cnt q (.file i n s) = if q .kfile then 1 else 0 := by
  simp [cnt]

theorem cnt_shortcut_val (q : Kind → Bool) (i : Nat) (n : String) (t : Nat) :
    cnt q (.shortcut i n t) = if q .kshortcut then 1 else 0 := by
  simp [cnt]

theorem FsInv_createShortcut (fs : FS) (path : List String) (name : String)
    (targetPath : List String) (h : FsInv fs) :
    FsInv (fs.createShortcut path name targetPath).1 := by
  obtain ⟨h1, h2, h3, h4, h5, h6, h7⟩ := h
  unfold FS.createShortcut
  split
  · exact ⟨h1, h2, h3, h4, h5, h6, h7⟩
  next hp =>
    rw [not_not] at hp
    cases htgt : elementAt fs.root targetPath with
    | none =>
      simp only [htgt]
      exact ⟨h1, h2, h3, h4, h5, h6, h7⟩
    | some target =>
      simp only [htgt]
      by_cases hdup : (findChildAt fs.root path (keyFromName name)).isSome = true
      · rw [if_pos hdup]
        exact ⟨h1, h2, h3, h4, h5, h6, h7⟩
      · rw [if_neg hdup]
        by_cases hname : name = ""
        · rw [if_pos hname]
          exact ⟨h1, h2, h3, h4, h5, h6, h7⟩
        · rw [if_neg hname]
          obtain ⟨hc1, hc2, hc3⟩ := insert_fresh_facts ⟨h1, h2, h3, h4, h5, h6, h7⟩ fs.root
            (.shortcut fs.nextId name target.ident) path (keyFromName name) rfl hp rfl
          refine ⟨hc1, hc2, ?_, ?_, ?_, ?_, goodRoot_insertAt h7⟩
          · show fs.nbElement + 1
              = cnt anyKind (insertAt fs.root path (keyFromName name)
                  (.shortcut fs.nextId name target.ident))
            rw [hc3 anyKind, h3, cnt_shortcut_val]
            simp [anyKind]
          · show fs.nbFile
              = cnt isKFile (insertAt fs.root path (keyFromName name)
                  (.shortcut fs.nextId name target.ident))
            rw [hc3 isKFile, h4, cnt_shortcut_val]
            simp [isKFile]
          · show fs.nbFolder
              = cnt isKFolder (insertAt fs.root path (keyFromName name)
                  (.shortcut fs.nextId name target.ident))
            rw [hc3 isKFolder, h5, cnt_shortcut_val]
            simp [isKFolder]
          · show fs.nbShortcut + 1
              = cnt isKShortcut (insertAt fs.root path (keyFromName name)
                  (.shortcut fs.nextId name target.ident))
            rw [hc3 isKShortcut, h6, cnt_shortcut_val]
            simp [isKShortcut]

theorem FsInv_createFile_core (fs : FS) (path : List String) (name : String) (s : Nat)
    (root1 : Entry) (h : FsInv fs)
    (hstrip : stripCaches root1 = stripCaches fs.root)
    (hp : isFolderAt fs.root path = true) :
    FsInv ((if (findChildAt root1 path (keyFromName name)).isSome then
      ({ fs with root := root1 }, OpResult.threw ⟨name ++ " already exists."⟩)
    else if name = "" then
      ({ fs with root := root1 }, OpResult.threw ⟨"invalid name."⟩)
    else if usub capacity (getSizeE root1).1 < s then
      ({ fs with root := (getSizeE root1).2 }, OpResult.threw ⟨"capacity overflow."⟩)
    else
      ({ fs with
         root := insertAt (getSizeE root1).2 path (keyFromName name) (.file fs.nextId name s),
         nextId := fs.nextId + 1,
         nbElement := fs.nbElement + 1,
         nbFile := fs.nbFile + 1 }, OpResult.ok) : FS × OpResult)).1 := by
  obtain ⟨h1, h2, h3, h4, h5, h6, h7⟩ := h
  have hstrip2 : stripCaches (getSizeE root1).2 = stripCaches fs.root :=
    (stripCaches_getSizeE root1).trans hstrip
  by_cases hdup : (findChildAt root1 path (keyFromName name)).isSome = true
  · rw [if_pos hdup]
    exact FsInv_stripSame ⟨h1, h2, h3, h4, h5, h6, h7⟩ hstrip
  · rw [if_neg hdup]
    by_cases hname : name = ""
    · rw [if_pos hname]
      exact FsInv_stripSame ⟨h1, h2, h3, h4, h5, h6, h7⟩ hstrip
    · rw [if_neg hname]
      by_cases hcap : usub capacity (getSizeE root1).1 < s
      · rw [if_pos hcap]
        exact FsInv_stripSame ⟨h1, h2, h3, h4, h5, h6, h7⟩ hstrip2
      · rw [if_neg hcap]
        obtain ⟨hc1, hc2, hc3⟩ := insert_fresh_facts ⟨h1, h2, h3, h4, h5, h6, h7⟩
          (getSizeE root1).2 (.file fs.nextId name s) path (keyFromName name) hstrip2 hp rfl
        refine ⟨hc1, hc2, ?_, ?_, ?_, ?_,
          goodRoot_insertAt (goodRoot_getSizeE (goodRoot_of_strip hstrip h7))⟩
        · show fs.nbElement + 1
            = cnt anyKind (insertAt (getSizeE root1).2 path (keyFromName name)
                (.file fs.nextId name s))
          rw [hc3 anyKind, h3, cnt_file_val]
          simp [anyKind]
        · show fs.nbFile + 1
            = cnt isKFile (insertAt (getSizeE root1).2 path (keyFromName name)
                (.file fs.nextId name s))
          rw [hc3 isKFile, h4, cnt_file_val]
          simp [isKFile]
        · show fs.nbFolder
            = cnt isKFolder (insertAt (getSizeE root1).2 path (keyFromName name)
                (.file fs.nextId name s))
          rw [hc3 isKFolder, h5, cnt_file_val]
          simp [isKFolder]
        · show fs.nbShortcut
            = cnt isKShortcut (insertAt (getSizeE root1).2 path (keyFromName name)
                (.file fs.nextId name s))
          rw [hc3 isKShortcut, h6, cnt_file_val]
          simp [isKShortcut]

theorem FsInv_createFile (fs : FS) (path : List String) (name : String) (size : Nat)
    (h : FsInv fs) : FsInv (fs.createFile path name size).1 := by
  unfold FS.createFile
  split
  · exact h
  next hp =>
    rw [not_not] at hp
    refine FsInv_createFile_core fs path name (size % UMAX) _ h ?_ hp
    split
    · exact stripCaches_invalidateAlong path fs.root
    · rfl

theorem FsInv_removeElement (fs : FS) (path : List String) (name : String)
    (h : FsInv fs) : FsInv (fs.removeElement path name).1 := by
  obtain ⟨h1, h2, h3, h4, h5, h6, h7⟩ := h
  unfold FS.removeElement
  split
  · exact ⟨h1, h2, h3, h4, h5, h6, h7⟩
  next hp =>
    rw [not_not] at hp
    cases hremoved : findChildAt fs.root path (keyFromName name) with
    | none =>
      simp only [hremoved]
      exact ⟨h1, h2, h3, h4, h5, h6, h7⟩
    | some removed =>
      simp only [hremoved]
      have hstrip : stripCaches (invalidateAlong fs.root path) = stripCaches fs.root :=
        stripCaches_invalidateAlong path fs.root
      have hfc := findChildAt_congr hstrip path (keyFromName name)
      rw [hremoved] at hfc
      cases hr1 : findChildAt (invalidateAlong fs.root path) path (keyFromName name) with
      | none => rw [hr1] at hfc; exact absurd hfc (by simp)
      | some removed1 =>
        rw [hr1] at hfc
        have hsremoved : stripCaches removed1 = stripCaches removed := by
          have hsome : some (stripCaches removed1) = some (stripCaches removed) := hfc
          exact Option.some_inj.mp hsome
        have hids1 : ids (invalidateAlong fs.root path) = ids fs.root := ids_congr hstrip
        have hcount := fun t => count_ids_eraseAt (c := removed1) t path
          (invalidateAlong fs.root path) hr1
        have hcnt := fun q => cnt_eraseAt (c := removed1) q path
          (invalidateAlong fs.root path) hr1
        have hcntr : ∀ q, cnt q (invalidateAlong fs.root path) = cnt q fs.root :=
          fun q => cnt_congr q hstrip
        have hcrem : ∀ q, cnt q removed1 = cnt q removed :=
          fun q => cnt_congr q hsremoved
        refine ⟨?_, ?_, ?_, ?_, ?_, ?_,
          goodRoot_eraseAt (goodRoot_invalidateAlong h7)⟩
        · intro t
          show (ids (eraseAt (invalidateAlong fs.root path) path (keyFromName name))).count t ≤ 1
          have := hcount t
          rw [hids1] at this
          have := h1 t
          omega
        · intro t hmem
          show t < fs.nextId
          have hpos : 0 < (ids (eraseAt (invalidateAlong fs.root path) path
              (keyFromName name))).count t := List.count_pos_iff.mpr hmem
          have hc := hcount t
          rw [hids1] at hc
          have : t ∈ ids fs.root := List.count_pos_iff.mp (by omega)
          exact h2 t this
        · show fs.nbElement - cnt anyKind removed
            = cnt anyKind (eraseAt (invalidateAlong fs.root path) path (keyFromName name))
          have := hcnt anyKind
          rw [hcntr anyKind, hcrem anyKind] at this
          omega
        · show fs.nbFile - cnt isKFile removed
            = cnt isKFile (eraseAt (invalidateAlong fs.root path) path (keyFromName name))
          have := hcnt isKFile
          rw [hcntr isKFile, hcrem isKFile] at this
          omega
        · show fs.nbFolder - cnt isKFolder removed
            = cnt isKFolder (eraseAt (invalidateAlong fs.root path) path (keyFromName name))
          have := hcnt isKFolder
          rw [hcntr isKFolder, hcrem isKFolder] at this
          omega
        · show fs.nbShortcut - cnt isKShortcut removed
            = cnt isKShortcut (eraseAt (invalidateAlong fs.root path) path (keyFromName name))
          have := hcnt isKShortcut
          rw [hcntr isKShortcut, hcrem isKShortcut] at this
          omega

theorem FsInv_applyOp (fs : FS) (op : Op) (h : FsInv fs) : FsInv (fs.applyOp op) := by
  cases op with
  | mkFile p n s => exact FsInv_createFile fs p n s h
  | mkFolder p n => exact FsInv_createFolder fs p n h
  | mkShortcut p n t => exact FsInv_createShortcut fs p n t h
  | rmElement p n => exact FsInv_removeElement fs p n h

theorem FsInv_run : ∀ (ops : List Op) (fs : FS), FsInv fs → FsInv (fs.run ops)
  | [], _, h => h
  | op :: ops, fs, h => FsInv_run ops (fs.applyOp op) (FsInv_applyOp fs op h)

/-- Every state reached from the freshly constructed partition by a
sequence of public operations satisfies the invariant. -/
theorem FsInv_reachable (ops : List Op) : FsInv (FS.run initFS ops) :=
  FsInv_run ops initFS FsInv_initFS

/-! ## Further observers and their lemmas -/

/-- The `getSize()` value of the element denoted by a path. -/
def sizeValAt (e : Entry) (p : List String) : Option Nat :=
  (elementAt e p).map (fun x => (getSizeE x).1)

/-- The `computedSize_` cache of the folder denoted by a path. -/
def cacheAt (e : Entry) (p : List String) : Option (Option Nat) :=
  match elementAt e p with
  | some (.folder _ _ c _) => some c
  | _ => none

theorem isSome_congr_of_map_strip {o1 o2 : Option Entry}
    (h : o1.map stripCaches = o2.map stripCaches) : o1.isSome = o2.isSome := by
  cases o1 <;> cases o2 <;> simp_all

theorem isFolderAt_of_findChildAt {e : Entry} {p : List String} {k : String}
    (h : (findChildAt e p k).isSome = true) : isFolderAt e p = true := by
  unfold findChildAt at h
  unfold isFolderAt
  cases he : elementAt e p with
  | none => rw [he] at h; simp at h
  | some x => rw [he] at h; cases x <;> simp_all [optIsFolder]

theorem find_append1_of_isSome {k1 : String} (key : String) (x : Entry) :
    ∀ cs : EList, (cs.find k1).isSome = true → (cs.append1 key x).find k1 = cs.find k1
  | .nil, h => by simp [EList.find] at h
  | .cons k0 e rest, h => by
    by_cases hk : k0 = k1
    · simp [EList.find, EList.append1, hk]
    · simp only [EList.find, if_neg hk] at h
      simp only [EList.append1, EList.find, if_neg hk]
      exact find_append1_of_isSome key x rest h

theorem find_append1_self {key : String} (x : Entry) :
    ∀ cs : EList, cs.find key = none → (cs.append1 key x).find key = some x
  | .nil, _ => by simp [EList.append1, EList.find]
  | .cons k0 e rest, h => by
    by_cases hk : k0 = key
    · simp [EList.find, hk] at h
    · simp only [EList.find, if_neg hk] at h
      simp only [EList.append1, EList.find, if_neg hk]
      exact find_append1_self x rest h

theorem find_set_self {key : String} {c : Entry} (x : Entry) :
    ∀ cs : EList, cs.find key = some c → (cs.set key x).find key = some x
  | .nil, h => by simp [EList.find] at h
  | .cons k0 e rest, h => by
    by_cases hk : k0 = key
    · simp [EList.set, EList.find, hk]
    · simp only [EList.find, if_neg hk] at h
      simp only [EList.set, EList.find, if_neg hk]
      exact find_set_self x rest h

theorem find_set_other {key k1 : String} (x : Entry) (hne : k1 ≠ key) :
    ∀ cs : EList, (cs.set key x).find k1 = cs.find k1
  | .nil => by simp [EList.set]
  | .cons k0 e rest => by
    by_cases hk : k0 = key
    · subst hk
      simp only [EList.set, if_pos rfl, EList.find]
      rw [if_neg, if_neg]
      · exact fun hc => hne hc.symm
      · exact fun hc => hne hc.symm
    · simp only [EList.set, if_neg hk, EList.find]
      by_cases hk1 : k0 = k1
      · simp [hk1]
      · simp only [if_neg hk1]
        exact find_set_other x hne rest

theorem getSizeL_append1_val {key : String} {x : Entry} (hx : (getSizeE x).1 = 0) :
    ∀ cs : EList, (getSizeL (cs.append1 key x)).1 = (getSizeL cs).1
  | .nil => by simp [EList.append1, getSizeL, hx, uadd]
  | .cons k0 e rest => by
    simp only [EList.append1, getSizeL]
    rw [getSizeL_append1_val hx rest]

theorem getSizeL_set_val {key : String} {c x : Entry} (hx : (getSizeE x).1 = (getSizeE c).1) :
    ∀ cs : EList, cs.find key = some c → (getSizeL (cs.set key x)).1 = (getSizeL cs).1
  | .nil, h => by simp [EList.find] at h
  | .cons k0 e rest, h => by
    by_cases hk : k0 = key
    · simp only [EList.find, if_pos hk] at h
      cases h
      simp only [EList.set, if_pos hk, getSizeL]
      rw [hx]
    · simp only [EList.find, if_neg hk] at h
      simp only [EList.set, if_neg hk, getSizeL]
      rw [getSizeL_set_val hx rest h]

theorem getSizeL_find (k1 : String) :
    ∀ cs : EList, (getSizeL cs).2.find k1 = (cs.find k1).map (fun e => (getSizeE e).2)
  | .nil => by simp [getSizeL, EList.find]
  | .cons k0 e rest => by
    by_cases hk : k0 = k1
    · simp [getSizeL, EList.find, hk]
    · simp only [getSizeL, EList.find, if_neg hk]
      exact getSizeL_find k1 rest

mutual
theorem findAbs_none_of_not_mem :
    ∀ (e : Entry) (t : Nat) (pre : String), t ∉ ids e → findAbs e t pre = none
  | .file i n s, t, pre => by
    intro h
    have : i ≠ t := by simp [ids] at h; omega
    simp [findAbs, this]
  | .shortcut i n tg, t, pre => by
    intro h
    have : i ≠ t := by simp [ids] at h; omega
    simp [findAbs, this]
  | .folder i n c cs, t, pre => by
    intro h
    simp only [ids, List.mem_cons, not_or] at h
    have hi : i ≠ t := fun hc => h.1 hc.symm
    simp only [findAbs, if_neg hi]
    exact findAbsL_none_of_not_mem cs t (pre ++ n ++ "/") h.2

theorem findAbsL_none_of_not_mem :
    ∀ (cs : EList) (t : Nat) (pre : String), t ∉ idsL cs → findAbsL cs t pre = none
  | .nil, t, pre => by intro _; rfl
  | .cons k e rest, t, pre => by
    intro h
    simp only [idsL, List.mem_append, not_or] at h
    simp only [findAbsL, findAbs_none_of_not_mem e t pre h.1]
    exact findAbsL_none_of_not_mem rest t pre h.2
end

theorem getSizeE_fill_preserves :
    ∀ (p' : List String) (e : Entry),
      sizeValAt (getSizeE e).2 p' = sizeValAt e p' ∧
      (∀ v, cacheAt e p' = some (some v) → cacheAt (getSizeE e).2 p' = some (some v))
  | [], e => by
    cases e with
    | file i n s => exact ⟨rfl, fun v h => h⟩
    | shortcut i n t => exact ⟨rfl, fun v h => h⟩
    | folder i n c cs =>
      cases c with
      | some v => exact ⟨rfl, fun v h => h⟩
      | none =>
        refine ⟨?_, ?_⟩
        · show some ((getSizeE (Entry.folder i n (some (getSizeL cs).1) (getSizeL cs).2)).1)
            = some ((getSizeE (.folder i n none cs)).1)
          simp [getSizeE]
        · intro v h
          simp [cacheAt, elementAt] at h
  | k1 :: rest, e => by
    cases e with
    | file i n s => exact ⟨rfl, fun v h => h⟩
    | shortcut i n t => exact ⟨rfl, fun v h => h⟩
    | folder i n c cs =>
      cases c with
      | some v => exact ⟨rfl, fun v h => h⟩
      | none =>
        have hfind := getSizeL_find k1 cs
        cases hf : cs.find k1 with
        | none =>
          rw [hf] at hfind
          refine ⟨?_, ?_⟩
          · simp [sizeValAt, getSizeE, elementAt, hf, hfind]
          · intro v h
            simp [cacheAt, elementAt, hf] at h
        | some c1 =>
          rw [hf] at hfind
          have hrec := getSizeE_fill_preserves rest c1
          refine ⟨?_, ?_⟩
          · have h1 : sizeValAt (.folder i n (some (getSizeL cs).1) (getSizeL cs).2) (k1 :: rest)
                = sizeValAt (getSizeE c1).2 rest := by
              simp [sizeValAt, elementAt, hfind]
            have h2 : sizeValAt (.folder i n none cs) (k1 :: rest) = sizeValAt c1 rest := by
              simp [sizeValAt, elementAt, hf]
            show sizeValAt (.folder i n (some (getSizeL cs).1) (getSizeL cs).2) (k1 :: rest)
                = sizeValAt (.folder i n none cs) (k1 :: rest)
            rw [h1, h2]
            exact hrec.1
          · intro v h
            have h2 : cacheAt (.folder i n none cs) (k1 :: rest) = cacheAt c1 rest := by
              simp [cacheAt, elementAt, hf]
            have h1 : cacheAt (.folder i n (some (getSizeL cs).1) (getSizeL cs).2) (k1 :: rest)
                = cacheAt (getSizeE c1).2 rest := by
              simp [cacheAt, elementAt, hfind]
            rw [h2] at h
            show cacheAt (.folder i n (some (getSizeL cs).1) (getSizeL cs).2) (k1 :: rest)
                = some (some v)
            rw [h1]
            exact hrec.2 v h

theorem insert_zero_preserves (key : String) (x : Entry) (hx : (getSizeE x).1 = 0) :
    ∀ (p : List String) (e : Entry), isFolderAt e p = true →
      ∀ p' : List String, (elementAt e p').isSome = true →
        sizeValAt (insertAt e p key x) p' = sizeValAt e p' ∧
        cacheAt (insertAt e p key x) p' = cacheAt e p'
  | [], e, hp, p', hp' => by
    cases e with
    | file i n s => rw [isFolderAt_file] at hp; cases hp
    | shortcut i n t => rw [isFolderAt_shortcut] at hp; cases hp
    | folder i n c cs =>
      cases p' with
      | nil =>
        refine ⟨?_, rfl⟩
        show some ((getSizeE (Entry.folder i n c (cs.append1 key x))).1)
          = some ((getSizeE (.folder i n c cs)).1)
        cases c with
        | some v => rfl
        | none => simp [getSizeE, getSizeL_append1_val hx cs]
      | cons k1 rest' =>
        have hfind : (cs.find k1).isSome = true := by
          cases hf : cs.find k1 with
          | none => simp [elementAt, hf] at hp'
          | some c1 => rfl
        have happ := find_append1_of_isSome key x cs hfind
        refine ⟨?_, ?_⟩
        · show sizeValAt (.folder i n c (cs.append1 key x)) (k1 :: rest')
            = sizeValAt (.folder i n c cs) (k1 :: rest')
          simp [sizeValAt, elementAt, happ]
        · show cacheAt (.folder i n c (cs.append1 key x)) (k1 :: rest')
            = cacheAt (.folder i n c cs) (k1 :: rest')
          simp [cacheAt, elementAt, happ]
  | k0 :: prest, e, hp, p', hp' => by
    cases e with
    | file i n s => rw [isFolderAt_file] at hp; cases hp
    | shortcut i n t => rw [isFolderAt_shortcut] at hp; cases hp
    | folder i n c cs =>
      obtain ⟨c0, hf0, hrec⟩ := isFolderAt_cons hp
      have hself := find_set_self (c := c0) (insertAt c0 prest key x) cs hf0
      have hins : insertAt (Entry.folder i n c cs) (k0 :: prest) key x
          = .folder i n c (cs.set k0 (insertAt c0 prest key x)) := by
        simp [insertAt, hf0]
      rw [hins]
      cases p' with
      | nil =>
        refine ⟨?_, ?_⟩
        · show some ((getSizeE (Entry.folder i n c (cs.set k0 (insertAt c0 prest key x)))).1)
            = some ((getSizeE (.folder i n c cs)).1)
          cases c with
          | some v => rfl
          | none =>
            have hval := (insert_zero_preserves key x hx prest c0 hrec []
              (by simp [elementAt])).1
            have hval' : (getSizeE (insertAt c0 prest key x)).1 = (getSizeE c0).1 := by
              have := hval
              simp [sizeValAt, elementAt] at this
              exact this
            simp [getSizeE, getSizeL_set_val hval' cs hf0]
        · show (some c : Option (Option Nat)) = some c
          rfl
      | cons k1 rest' =>
        by_cases hk : k1 = k0
        · subst hk
          have hp'' : (elementAt c0 rest').isSome = true := by
            simpa [elementAt, hf0] using hp'
          have hrec' := insert_zero_preserves key x hx prest c0 hrec rest' hp''
          refine ⟨?_, ?_⟩
          · show sizeValAt (.folder i n c (cs.set k1 (insertAt c0 prest key x))) (k1 :: rest')
              = sizeValAt (.folder i n c cs) (k1 :: rest')
            have hL : sizeValAt (.folder i n c (cs.set k1 (insertAt c0 prest key x))) (k1 :: rest')
                = sizeValAt (insertAt c0 prest key x) rest' := by
              simp [sizeValAt, elementAt, hself]
            have hR : sizeValAt (.folder i n c cs) (k1 :: rest') = sizeValAt c0 rest' := by
              simp [sizeValAt, elementAt, hf0]
            rw [hL, hR]
            exact hrec'.1
          · show cacheAt (.folder i n c (cs.set k1 (insertAt c0 prest key x))) (k1 :: rest')
              = cacheAt (.folder i n c cs) (k1 :: rest')
            have hL : cacheAt (.folder i n c (cs.set k1 (insertAt c0 prest key x))) (k1 :: rest')
                = cacheAt (insertAt c0 prest key x) rest' := by
              simp [cacheAt, elementAt, hself]
            have hR : cacheAt (.folder i n c cs) (k1 :: rest') = cacheAt c0 rest' := by
              simp [cacheAt, elementAt, hf0]
            rw [hL, hR]
            exact hrec'.2
        · have hother := find_set_other (insertAt c0 prest key x) hk cs
          refine ⟨?_, ?_⟩
          · show sizeValAt (.folder i n c (cs.set k0 (insertAt c0 prest key x))) (k1 :: rest')
              = sizeValAt (.folder i n c cs) (k1 :: rest')
            simp [sizeValAt, elementAt, hother]
          · show cacheAt (.folder i n c (cs.set k0 (insertAt c0 prest key x))) (k1 :: rest')
              = cacheAt (.folder i n c cs) (k1 :: rest')
            simp [cacheAt, elementAt, hother]

/-! ## Claims -/

/-- C1: the claim states that in every reachable state the sum of the
sizes of all files beneath the partition is at most its capacity of
10000 bytes.  The code violates it: `Folder::createFile` invalidates
the size caches *before* the file is constructed, and the capacity
check inside `File::File` refills every cache via `Partition::getSize`
*before* the file is inserted, so off-path folder caches stay stale and
undercount.  Concretely: after creating folder "A", a 6000-byte file in
"A", and then a 6000-byte file in the root — each call succeeding, the
last one because the stale cache of "A" reports 0 — the partition holds
12000 bytes, exceeding the 10000-byte capacity. -/
theorem c1_capacity_invariant_violated :
    ((FS.run initFS [.mkFolder [] "A", .mkFile ["A"] "f" 6000]).createFile
        [] "g" 6000).2 = .ok ∧
    plainSize (FS.run initFS
        [.mkFolder [] "A", .mkFile ["A"] "f" 6000, .mkFile [] "g" 6000]).root = 12000 ∧
    capacity = 10000 := by
  refine ⟨by decide, by decide, by decide⟩

/-- C2: the claim states that `Folder::getSize` always returns the
uncached recursive sum of the children's sizes, in particular after
removing a child and re-adding one.  The code violates it: the capacity
check run during `createFile` caches the pre-insertion totals, and
nothing invalidates them after the insertion.  Concretely: create
folder "r2", create file "f2" (100 bytes) in it, remove "f2", then
re-add file "f2b" (500 bytes); afterwards `getSize` returns 0 on both
the partition and on "r2", while the uncached recursive sum is 500. -/
theorem c2_getSize_stale_after_remove_and_readd :
    (getSizeE (FS.run initFS
        [.mkFolder [] "r2", .mkFile ["R2"] "f2" 100,
         .rmElement ["R2"] "f2", .mkFile ["R2"] "f2b" 500]).root).1 = 0 ∧
    plainSize (FS.run initFS
        [.mkFolder [] "r2", .mkFile ["R2"] "f2" 100,
         .rmElement ["R2"] "f2", .mkFile ["R2"] "f2b" 500]).root = 500 ∧
    (elementAt (FS.run initFS
        [.mkFolder [] "r2", .mkFile ["R2"] "f2" 100,
         .rmElement ["R2"] "f2", .mkFile ["R2"] "f2b" 500]).root ["R2"]).map
      (fun e => (getSizeE e).1) = some 0 ∧
    (elementAt (FS.run initFS
        [.mkFolder [] "r2", .mkFile ["R2"] "f2" 100,
         .rmElement ["R2"] "f2", .mkFile ["R2"] "f2b" 500]).root ["R2"]).map
      plainSize = some 500 := by
  refine ⟨by decide, by decide, by decide, by decide⟩

/-- C3: the claim states that `createFile` raises a domain error when
the requested size exceeds the partition's remaining capacity (capacity
minus the current total size).  The code violates it: the check
compares against the possibly stale cached size.  Concretely: with
folder "A" holding a 6000-byte file, the true total is 6000 and the
remaining capacity is 4000, yet creating a 6000-byte file "g" in the
root succeeds and inserts the file, because the stale cache of "A"
makes `Partition::getSize` report 0. -/
theorem c3_capacity_check_misses_overflow :
    plainSize (FS.run initFS [.mkFolder [] "A", .mkFile ["A"] "f" 6000]).root = 6000 ∧
    capacity - plainSize (FS.run initFS
        [.mkFolder [] "A", .mkFile ["A"] "f" 6000]).root < 6000 ∧
    ((FS.run initFS [.mkFolder [] "A", .mkFile ["A"] "f" 6000]).createFile
        [] "g" 6000).2 = .ok ∧
    (findChildAt ((FS.run initFS [.mkFolder [] "A", .mkFile ["A"] "f" 6000]).createFile
        [] "g" 6000).1.root [] "G").isSome = true := by
  refine ⟨by decide, by decide, by decide, by decide⟩

/-- C8: `Shortcut::getSize` returns 0 for every shortcut, whatever its
name, identity and target, hence in every state, whether the target is
live or removed: the function is `return 0` and reads no state. -/
theorem c8_shortcut_size_always_zero (i : Nat) (n : String) (t : Nat) :
    (getSizeE (.shortcut i n t)).1 = 0 ∧ plainSize (.shortcut i n t) = 0 :=
  ⟨rfl, rfl⟩

/-- C4: if a folder already has a child whose name has the same
upper-cased image as `n1`, then creating a second child named `n2`,
where `n2` differs from `n1` only in letter case (character-wise equal
after `toupper`), throws the domain error "already exists" for a file,
a folder and a shortcut alike, and the folder's children are unchanged
(for `createFile` the state changes at most in the caches invalidated
before the name check). -/
theorem c4_sibling_names_case_insensitive (fs : FS) (path : List String)
    (n1 n2 : String) (targetPath : List String) (sz : Nat)
    (hchild : (findChildAt fs.root path (keyFromName n1)).isSome = true)
    (hcase : n1.data.map Char.toUpper = n2.data.map Char.toUpper) :
    ((fs.createFolder path n2).2 = .threw ⟨n2 ++ " already exists."⟩ ∧
     (fs.createFolder path n2).1 = fs) ∧
    ((elementAt fs.root targetPath).isSome = true →
     (fs.createShortcut path n2 targetPath).2 = .threw ⟨n2 ++ " already exists."⟩ ∧
     (fs.createShortcut path n2 targetPath).1 = fs) ∧
    ((fs.createFile path n2 sz).2 = .threw ⟨n2 ++ " already exists."⟩ ∧
     stripCaches (fs.createFile path n2 sz).1.root = stripCaches fs.root ∧
     (fs.createFile path n2 sz).1.nbElement = fs.nbElement ∧
     (fs.createFile path n2 sz).1.nbFile = fs.nbFile) := by
  have hkey : keyFromName n1 = keyFromName n2 := by
    unfold keyFromName
    exact congrArg String.mk hcase
  have hp : isFolderAt fs.root path = true := isFolderAt_of_findChildAt hchild
  have hchild2 : (findChildAt fs.root path (keyFromName n2)).isSome = true := by
    rw [← hkey]
    exact hchild
  refine ⟨?_, ?_, ?_⟩
  · unfold FS.createFolder
    rw [if_neg (not_not_intro hp), if_pos hchild2]
    exact ⟨rfl, rfl⟩
  · intro htgt
    unfold FS.createShortcut
    rw [if_neg (not_not_intro hp)]
    cases he : elementAt fs.root targetPath with
    | none => rw [he] at htgt; simp at htgt
    | some tgt =>
      simp only [he]
      rw [if_pos hchild2]
      exact ⟨rfl, rfl⟩
  · unfold FS.createFile
    rw [if_neg (not_not_intro hp)]
    have hstrip1 : stripCaches
        (if sz % UMAX ≠ 0 then invalidateAlong fs.root path else fs.root)
          = stripCaches fs.root := by
      split
      · exact stripCaches_invalidateAlong path fs.root
      · rfl
    have hchild1 : (findChildAt
        (if sz % UMAX ≠ 0 then invalidateAlong fs.root path else fs.root)
        path (keyFromName n2)).isSome = true := by
      rw [isSome_congr_of_map_strip (findChildAt_congr hstrip1 path (keyFromName n2))]
      exact hchild2
    rw [if_pos hchild1]
    exact ⟨rfl, hstrip1, rfl, rfl⟩

/-- C6: every failure of the public operations is the single exception
type `std::domain_error` (`DomainError` here) with the message of its
throw site: empty name ("invalid name."), case-insensitively duplicate
sibling name ("already exists."), removal of a missing name ("does not
exist.", leaving the state — in particular the folder's children —
entirely unchanged), and capacity overflow ("capacity overflow.", when
the check `capacity_ - getSize() < size` fires). -/
theorem bool_ne_true {b : Bool} (h : b = false) : ¬ b = true := by
  rw [h]
  simp

theorem c6_all_failures_single_domain_error (fs : FS) (path : List String)
    (nm nm' : String) (sz : Nat) (hp : isFolderAt fs.root path = true) :
    ((findChildAt fs.root path (keyFromName "")).isSome = false →
      (fs.createFolder path "").2 = .threw ⟨"invalid name."⟩ ∧
      (fs.createFolder path "").1 = fs) ∧
    ((findChildAt fs.root path (keyFromName nm)).isSome = true →
      (fs.createFolder path nm).2 = .threw ⟨nm ++ " already exists."⟩ ∧
      (fs.createFolder path nm).1 = fs) ∧
    ((findChildAt fs.root path (keyFromName nm')).isSome = false →
      (fs.removeElement path nm').2 = .threw ⟨nm' ++ " does not exist."⟩ ∧
      (fs.removeElement path nm').1 = fs) ∧
    ((findChildAt (if sz % UMAX ≠ 0 then invalidateAlong fs.root path else fs.root)
        path (keyFromName nm')).isSome = false → nm' ≠ "" →
      usub capacity (getSizeE (if sz % UMAX ≠ 0 then invalidateAlong fs.root path
        else fs.root)).1 < sz % UMAX →
      (fs.createFile path nm' sz).2 = .threw ⟨"capacity overflow."⟩) := by
  refine ⟨?_, ?_, ?_, ?_⟩
  · intro hdup
    unfold FS.createFolder
    rw [if_neg (not_not_intro hp), if_neg (bool_ne_true hdup), if_pos rfl]
    exact ⟨rfl, rfl⟩
  · intro hdup
    unfold FS.createFolder
    rw [if_neg (not_not_intro hp), if_pos hdup]
    exact ⟨rfl, rfl⟩
  · intro hmiss
    unfold FS.removeElement
    rw [if_neg (not_not_intro hp)]
    have hnone : findChildAt fs.root path (keyFromName nm') = none := by
      cases hffind : findChildAt fs.root path (keyFromName nm') with
      | none => rfl
      | some c => rw [hffind] at hmiss; simp at hmiss
    simp only [hnone]
    exact ⟨trivial, trivial⟩
  · intro hdup hnm hcap
    unfold FS.createFile
    rw [if_neg (not_not_intro hp), if_neg (bool_ne_true hdup), if_neg hnm, if_pos hcap]

/-- C7: in every reachable state the four `Counter<T>` counts equal the
number of live nodes of their kind — the whole tree for
`Counter<Element>`, files for `Counter<File>`, folders (the partition
included) for `Counter<Folder>`, shortcuts for `Counter<Shortcut>`；
the freshly constructed partition is counted once as an element and
once as a folder; every successful creation increments the counter of
the created type and of `Element` by one and leaves the others
unchanged; and a successful removal decrements each counter by the
number of nodes of that kind in the erased subtree. -/
theorem c7_per_type_instance_counters (ops : List Op) (path : List String)
    (nm : String) (sz : Nat) (targetPath : List String) (removed tgt : Entry) :
    ((FS.run initFS ops).nbElement = cnt anyKind (FS.run initFS ops).root ∧
     (FS.run initFS ops).nbFile = cnt isKFile (FS.run initFS ops).root ∧
     (FS.run initFS ops).nbFolder = cnt isKFolder (FS.run initFS ops).root ∧
     (FS.run initFS ops).nbShortcut = cnt isKShortcut (FS.run initFS ops).root) ∧
    (initFS.nbElement = 1 ∧ initFS.nbFolder = 1 ∧ initFS.nbFile = 0 ∧
     initFS.nbShortcut = 0 ∧ cnt anyKind initFS.root = 1 ∧
     cnt isKFolder initFS.root = 1) ∧
    (∀ fs : FS, isFolderAt fs.root path = true →
     (findChildAt fs.root path (keyFromName nm)).isSome = false → ¬ nm = "" →
       (fs.createFolder path nm).2 = .ok ∧
       (fs.createFolder path nm).1.nbElement = fs.nbElement + 1 ∧
       (fs.createFolder path nm).1.nbFolder = fs.nbFolder + 1 ∧
       (fs.createFolder path nm).1.nbFile = fs.nbFile ∧
       (fs.createFolder path nm).1.nbShortcut = fs.nbShortcut) ∧
    (∀ fs : FS, isFolderAt fs.root path = true →
     elementAt fs.root targetPath = some tgt →
     (findChildAt fs.root path (keyFromName nm)).isSome = false → ¬ nm = "" →
       (fs.createShortcut path nm targetPath).2 = .ok ∧
       (fs.createShortcut path nm targetPath).1.nbElement = fs.nbElement + 1 ∧
       (fs.createShortcut path nm targetPath).1.nbShortcut = fs.nbShortcut + 1 ∧
       (fs.createShortcut path nm targetPath).1.nbFile = fs.nbFile ∧
       (fs.createShortcut path nm targetPath).1.nbFolder = fs.nbFolder) ∧
    (∀ fs : FS, isFolderAt fs.root path = true →
     (findChildAt (if sz % UMAX ≠ 0 then invalidateAlong fs.root path else fs.root)
        path (keyFromName nm)).isSome = false → ¬ nm = "" →
     ¬ usub capacity (getSizeE (if sz % UMAX ≠ 0 then invalidateAlong fs.root path
        else fs.root)).1 < sz % UMAX →
       (fs.createFile path nm sz).2 = .ok ∧
       (fs.createFile path nm sz).1.nbElement = fs.nbElement + 1 ∧
       (fs.createFile path nm sz).1.nbFile = fs.nbFile + 1 ∧
       (fs.createFile path nm sz).1.nbFolder = fs.nbFolder ∧
       (fs.createFile path nm sz).1.nbShortcut = fs.nbShortcut) ∧
    (∀ fs : FS, isFolderAt fs.root path = true →
     findChildAt fs.root path (keyFromName nm) = some removed →
       (fs.removeElement path nm).2 = .ok ∧
       (fs.removeElement path nm).1.nbElement = fs.nbElement - cnt anyKind removed ∧
       (fs.removeElement path nm).1.nbFile = fs.nbFile - cnt isKFile removed ∧
       (fs.removeElement path nm).1.nbFolder = fs.nbFolder - cnt isKFolder removed ∧
       (fs.removeElement path nm).1.nbShortcut
         = fs.nbShortcut - cnt isKShortcut removed) := by
  refine ⟨?_, ⟨rfl, rfl, rfl, rfl, by decide, by decide⟩, ?_, ?_, ?_, ?_⟩
  · obtain ⟨-, -, h3, h4, h5, h6, -⟩ := FsInv_reachable ops
    exact ⟨h3, h4, h5, h6⟩
  · intro fs hp hdup hnm
    unfold FS.createFolder
    rw [if_neg (not_not_intro hp), if_neg (bool_ne_true hdup), if_neg hnm]
    exact ⟨rfl, rfl, rfl, rfl, rfl⟩
  · intro fs hp htgt hdup hnm
    unfold FS.createShortcut
    rw [if_neg (not_not_intro hp)]
    simp only [htgt]
    rw [if_neg (bool_ne_true hdup), if_neg hnm]
    exact ⟨rfl, rfl, rfl, rfl, rfl⟩
  · intro fs hp hdup hnm hcap
    unfold FS.createFile
    rw [if_neg (not_not_intro hp), if_neg (bool_ne_true hdup), if_neg hnm, if_neg hcap]
    exact ⟨rfl, rfl, rfl, rfl, rfl⟩
  · intro fs hp hfound
    unfold FS.removeElement
    rw [if_neg (not_not_intro hp)]
    simp only [hfound]
    exact ⟨trivial, trivial, trivial, trivial, trivial⟩

theorem findChildAt_insertAt_self (key : String) (x : Entry) :
    ∀ (p : List String) (e : Entry), isFolderAt e p = true →
      (findChildAt e p key).isSome = false →
      findChildAt (insertAt e p key x) p key = some x
  | [], e, hp, hnone => by
    cases e with
    | file i n s => rw [isFolderAt_file] at hp; cases hp
    | shortcut i n t => rw [isFolderAt_shortcut] at hp; cases hp
    | folder i n c cs =>
      have hcs : cs.find key = none := by
        cases hf : cs.find key with
        | none => rfl
        | some c1 =>
          have hx : findChildAt (Entry.folder i n c cs) [] key = some c1 := by
            simp [findChildAt, elementAt, hf]
          rw [hx] at hnone
          simp at hnone
      show (cs.append1 key x).find key = some x
      exact find_append1_self x cs hcs
  | k0 :: prest, e, hp, hnone => by
    cases e with
    | file i n s => rw [isFolderAt_file] at hp; cases hp
    | shortcut i n t => rw [isFolderAt_shortcut] at hp; cases hp
    | folder i n c cs =>
      obtain ⟨c0, hf0, hrec⟩ := isFolderAt_cons hp
      have hins : insertAt (Entry.folder i n c cs) (k0 :: prest) key x
          = .folder i n c (cs.set k0 (insertAt c0 prest key x)) := by
        simp [insertAt, hf0]
      rw [hins]
      rw [findChildAt_cons hf0] at hnone
      have hself := find_set_self (c := c0) (insertAt c0 prest key x) cs hf0
      rw [findChildAt_cons hself]
      exact findChildAt_insertAt_self key x prest c0 hrec hnone

theorem display_root (fs : FS) (h : goodRoot fs.root) :
    shortcutDisplayText fs 0 = " --> /r1" := by
  obtain ⟨c, cs, hr⟩ := h
  unfold shortcutDisplayText
  rw [hr]
  simp [findAbs]

/-- C10: a shortcut whose target is the partition root can always be
created (the partition's `getSharedPtr` override returns the permanent
non-owning handle with the partition's identity 0), the created
shortcut stores identity 0, and displaying a shortcut with target 0
always resolves to the partition's absolute name "/r1" in every
reachable state — it never reports "inexisting element". -/
theorem c10_shortcut_to_partition_root (ops : List Op) (path : List String)
    (nm : String) :
    shortcutDisplayText (FS.run initFS ops) 0 = " --> /r1" ∧
    (isFolderAt (FS.run initFS ops).root path = true →
     (findChildAt (FS.run initFS ops).root path (keyFromName nm)).isSome = false →
     ¬ nm = "" →
       ((FS.run initFS ops).createShortcut path nm []).2 = .ok ∧
       findChildAt ((FS.run initFS ops).createShortcut path nm []).1.root path
           (keyFromName nm)
         = some (.shortcut (FS.run initFS ops).nextId nm 0) ∧
       shortcutDisplayText ((FS.run initFS ops).createShortcut path nm []).1 0
         = " --> /r1") := by
  have hInv := FsInv_reachable ops
  have hgood : goodRoot (FS.run initFS ops).root := hInv.2.2.2.2.2.2
  refine ⟨display_root _ hgood, ?_⟩
  intro hp hdup hnm
  have hident : (FS.run initFS ops).root.ident = 0 := by
    obtain ⟨c, cs, hr⟩ := hgood
    rw [hr]
    rfl
  unfold FS.createShortcut
  rw [if_neg (not_not_intro hp)]
  have he : elementAt (FS.run initFS ops).root [] = some (FS.run initFS ops).root := by
    cases hcase : (FS.run initFS ops).root <;> rfl
  simp only [he]
  rw [if_neg (bool_ne_true hdup), if_neg hnm]
  refine ⟨rfl, ?_, ?_⟩
  · rw [show findChildAt (insertAt (FS.run initFS ops).root path (keyFromName nm)
        (.shortcut (FS.run initFS ops).nextId nm (FS.run initFS ops).root.ident)) path
        (keyFromName nm)
      = some (.shortcut (FS.run initFS ops).nextId nm (FS.run initFS ops).root.ident)
      from findChildAt_insertAt_self (keyFromName nm) _ path _ hp hdup]
    rw [hident]
  · exact display_root _ (goodRoot_insertAt hgood)

/-- C5: after a successful `removeElement` the erased child's whole
subtree is destroyed; any object identity `t` that lived in that
subtree is no longer alive anywhere in the partition (identities are
unique), so a shortcut whose stored weak handle targets `t` displays
" --> inexisting element" instead of dereferencing a dead object — the
lock of the expired handle yields null and the null check selects the
fallback text. -/
theorem c5_shortcut_reports_removed_target (ops : List Op) (path : List String)
    (nm : String) (t : Nat) (c : Entry) (spath : List String) (j : Nat) (snm : String)
    (hp : isFolderAt (FS.run initFS ops).root path = true)
    (hfound : findChildAt (FS.run initFS ops).root path (keyFromName nm) = some c)
    (ht : t ∈ ids c)
    (_hsc : elementAt ((FS.run initFS ops).removeElement path nm).1.root spath
        = some (.shortcut j snm t)) :
    ((FS.run initFS ops).removeElement path nm).2 = .ok ∧
    shortcutDisplayText ((FS.run initFS ops).removeElement path nm).1 t
      = " --> inexisting element" := by
  obtain ⟨h1, h2, h3, h4, h5, h6, h7⟩ := FsInv_reachable ops
  have hres : (FS.run initFS ops).removeElement path nm
      = ({ root := eraseAt (invalidateAlong (FS.run initFS ops).root path) path
             (keyFromName nm),
           nextId := (FS.run initFS ops).nextId,
           nbElement := (FS.run initFS ops).nbElement - cnt anyKind c,
           nbFile := (FS.run initFS ops).nbFile - cnt isKFile c,
           nbFolder := (FS.run initFS ops).nbFolder - cnt isKFolder c,
           nbShortcut := (FS.run initFS ops).nbShortcut - cnt isKShortcut c }, .ok) := by
    unfold FS.removeElement
    rw [if_neg (not_not_intro hp)]
    simp only [hfound]
  rw [hres]
  refine ⟨rfl, ?_⟩
  have hstrip : stripCaches (invalidateAlong (FS.run initFS ops).root path)
      = stripCaches (FS.run initFS ops).root := stripCaches_invalidateAlong path _
  have hfc := findChildAt_congr hstrip path (keyFromName nm)
  rw [hfound] at hfc
  cases hr1 : findChildAt (invalidateAlong (FS.run initFS ops).root path) path
      (keyFromName nm) with
  | none => rw [hr1] at hfc; exact absurd hfc (by simp)
  | some c1 =>
    rw [hr1] at hfc
    have hsc1 : stripCaches c1 = stripCaches c := by
      have hsome : some (stripCaches c1) = some (stripCaches c) := hfc
      exact Option.some_inj.mp hsome
    have hidsc : ids c1 = ids c := ids_congr hsc1
    have hcount := count_ids_eraseAt (c := c1) t path
      (invalidateAlong (FS.run initFS ops).root path) hr1
    have hids1 : ids (invalidateAlong (FS.run initFS ops).root path)
        = ids (FS.run initFS ops).root := ids_congr hstrip
    rw [hids1, hidsc] at hcount
    have hcpos : 0 < (ids c).count t := List.count_pos_iff.mpr ht
    have hle := h1 t
    have hnotmem : t ∉ ids (eraseAt (invalidateAlong (FS.run initFS ops).root path) path
        (keyFromName nm)) := by
      intro hmem
      have hpos2 : 0 < (ids (eraseAt (invalidateAlong (FS.run initFS ops).root path) path
          (keyFromName nm))).count t := List.count_pos_iff.mpr hmem
      omega
    unfold shortcutDisplayText
    rw [findAbs_none_of_not_mem _ t "" hnotmem]
    decide

theorem elementAt_isSome_congr {e1 e2 : Entry} (h : stripCaches e1 = stripCaches e2)
    (p : List String) : (elementAt e1 p).isSome = (elementAt e2 p).isSome := by
  apply isSome_congr_of_map_strip
  rw [← elementAt_strip, ← elementAt_strip, h]

/-- C9: creating a folder, a shortcut, or a file of size 0 in any
folder leaves the `getSize()` value of every element already in the
tree unchanged and clears no `computedSize_` cache: `createFolder` and
`createShortcut` never touch the caches, and `createFile` with size 0
skips the invalidation (it only lets the capacity check fill caches
with the unchanged totals).  Only `createFile` with a nonzero size and
`removeElement` call `invalidateSize`. -/
theorem c9_zero_size_creates_preserve_sizes (fs : FS) (path : List String)
    (nm : String) (targetPath : List String) (p' : List String)
    (hp : isFolderAt fs.root path = true)
    (hdup : (findChildAt fs.root path (keyFromName nm)).isSome = false)
    (hnm : ¬ nm = "")
    (hp' : (elementAt fs.root p').isSome = true) :
    ((fs.createFolder path nm).2 = .ok ∧
     sizeValAt (fs.createFolder path nm).1.root p' = sizeValAt fs.root p' ∧
     cacheAt (fs.createFolder path nm).1.root p' = cacheAt fs.root p') ∧
    (∀ tgt, elementAt fs.root targetPath = some tgt →
     (fs.createShortcut path nm targetPath).2 = .ok ∧
     sizeValAt (fs.createShortcut path nm targetPath).1.root p' = sizeValAt fs.root p' ∧
     cacheAt (fs.createShortcut path nm targetPath).1.root p' = cacheAt fs.root p') ∧
    ((fs.createFile path nm 0).2 = .ok ∧
     sizeValAt (fs.createFile path nm 0).1.root p' = sizeValAt fs.root p' ∧
     (∀ v, cacheAt fs.root p' = some (some v) →
        cacheAt (fs.createFile path nm 0).1.root p' = some (some v))) := by
  refine ⟨?_, ?_, ?_⟩
  · unfold FS.createFolder
    rw [if_neg (not_not_intro hp), if_neg (bool_ne_true hdup), if_neg hnm]
    have hzero : (getSizeE (Entry.folder fs.nextId nm none .nil)).1 = 0 := rfl
    have hpres := insert_zero_preserves (keyFromName nm) _ hzero path fs.root hp p' hp'
    exact ⟨rfl, hpres.1, hpres.2⟩
  · intro tgt htgt
    unfold FS.createShortcut
    rw [if_neg (not_not_intro hp)]
    simp only [htgt]
    rw [if_neg (bool_ne_true hdup), if_neg hnm]
    have hzero : (getSizeE (Entry.shortcut fs.nextId nm tgt.ident)).1 = 0 := rfl
    have hpres := insert_zero_preserves (keyFromName nm) _ hzero path fs.root hp p' hp'
    exact ⟨rfl, hpres.1, hpres.2⟩
  · unfold FS.createFile
    rw [if_neg (not_not_intro hp),
      if_neg (show ¬ ((0 : Nat) % UMAX ≠ 0) by decide),
      if_neg (bool_ne_true hdup), if_neg hnm,
      if_neg (show ¬ usub capacity (getSizeE fs.root).1 < 0 % UMAX by
        rw [show (0 : Nat) % UMAX = 0 from by decide]
        exact Nat.not_lt_zero _)]
    have hzero : (getSizeE (Entry.file fs.nextId nm (0 % UMAX))).1 = 0 := by
      show (0 : Nat) % UMAX = 0
      decide
    have hstr := stripCaches_getSizeE fs.root
    have hpB : isFolderAt (getSizeE fs.root).2 path = true := by
      rw [isFolderAt_congr hstr]
      exact hp
    have hp'B : (elementAt (getSizeE fs.root).2 p').isSome = true := by
      rw [elementAt_isSome_congr hstr]
      exact hp'
    have hfill := getSizeE_fill_preserves p' fs.root
    have hpres := insert_zero_preserves (keyFromName nm) _ hzero path
      (getSizeE fs.root).2 hpB p' hp'B
    exact ⟨rfl, hpres.1.trans hfill.1, fun v hv => hpres.2.trans (hfill.2 v hv)⟩

/-- Witness for C4 at a concrete state: folder "foo" exists in the
root, and creating "FOO" fails with "already exists". -/
theorem c4_witness :
    (findChildAt (FS.run initFS [.mkFolder [] "foo"]).root []
        (keyFromName "foo")).isSome = true ∧
    "foo".data.map Char.toUpper = "FOO".data.map Char.toUpper ∧
    (((FS.run initFS [.mkFolder [] "foo"]).createFolder [] "FOO").2
        = .threw ⟨"FOO" ++ " already exists."⟩ ∧
     ((FS.run initFS [.mkFolder [] "foo"]).createFolder [] "FOO").1
        = FS.run initFS [.mkFolder [] "foo"]) :=
  ⟨by decide, by decide,
    (c4_sibling_names_case_insensitive (FS.run initFS [.mkFolder [] "foo"])
      [] "foo" "FOO" [] 5 (by decide) (by decide)).1⟩

/-- Witness for C5 at a concrete state: file "f" (identity 2) inside
folder "d", a shortcut "s" targeting it; after removing "f" the
shortcut displays "inexisting element". -/
theorem c5_witness :
    isFolderAt (FS.run initFS
      [.mkFolder [] "d", .mkFile ["D"] "f" 10, .mkShortcut [] "s" ["D", "F"]]).root
      ["D"] = true ∧
    findChildAt (FS.run initFS
      [.mkFolder [] "d", .mkFile ["D"] "f" 10, .mkShortcut [] "s" ["D", "F"]]).root
      ["D"] (keyFromName "f") = some (.file 2 "f" 10) ∧
    2 ∈ ids (.file 2 "f" 10) ∧
    elementAt ((FS.run initFS
      [.mkFolder [] "d", .mkFile ["D"] "f" 10, .mkShortcut [] "s" ["D", "F"]]).removeElement
        ["D"] "f").1.root ["S"] = some (.shortcut 3 "s" 2) ∧
    (((FS.run initFS
      [.mkFolder [] "d", .mkFile ["D"] "f" 10, .mkShortcut [] "s" ["D", "F"]]).removeElement
        ["D"] "f").2 = .ok ∧
     shortcutDisplayText ((FS.run initFS
      [.mkFolder [] "d", .mkFile ["D"] "f" 10, .mkShortcut [] "s" ["D", "F"]]).removeElement
        ["D"] "f").1 2 = " --> inexisting element") :=
  ⟨by decide, by rfl, by decide, by rfl,
    c5_shortcut_reports_removed_target
      [.mkFolder [] "d", .mkFile ["D"] "f" 10, .mkShortcut [] "s" ["D", "F"]]
      ["D"] "f" 2 (.file 2 "f" 10) ["S"] 3 "s"
      (by decide) (by rfl) (by decide) (by rfl)⟩

/-- Witness for C6 at a concrete state: the root holds file "f" of
9000 bytes; the four failure scenarios all throw the domain error with
their message. -/
theorem c6_witness :
    isFolderAt (FS.run initFS [.mkFile [] "f" 9000]).root [] = true ∧
    ((FS.run initFS [.mkFile [] "f" 9000]).createFolder [] "").2
      = .threw ⟨"invalid name."⟩ ∧
    ((FS.run initFS [.mkFile [] "f" 9000]).createFolder [] "f").2
      = .threw ⟨"f" ++ " already exists."⟩ ∧
    (((FS.run initFS [.mkFile [] "f" 9000]).removeElement [] "g").2
      = .threw ⟨"g" ++ " does not exist."⟩ ∧
     ((FS.run initFS [.mkFile [] "f" 9000]).removeElement [] "g").1
      = FS.run initFS [.mkFile [] "f" 9000]) ∧
    ((FS.run initFS [.mkFile [] "f" 9000]).createFile [] "g" 2000).2
      = .threw ⟨"capacity overflow."⟩ :=
  ⟨by decide,
   ((c6_all_failures_single_domain_error (FS.run initFS [.mkFile [] "f" 9000])
      [] "f" "g" 2000 (by decide)).1 (by decide)).1,
   ((c6_all_failures_single_domain_error (FS.run initFS [.mkFile [] "f" 9000])
      [] "f" "g" 2000 (by decide)).2.1 (by decide)).1,
   (c6_all_failures_single_domain_error (FS.run initFS [.mkFile [] "f" 9000])
      [] "f" "g" 2000 (by decide)).2.2.1 (by decide),
   (c6_all_failures_single_domain_error (FS.run initFS [.mkFile [] "f" 9000])
      [] "f" "g" 2000 (by decide)).2.2.2 (by decide) (by decide) (by decide)⟩

/-- Witness for C7 at concrete states: counter equalities in a
reachable state, and the increments/decrement at concrete calls. -/
theorem c7_witness :
    ((FS.run initFS [.mkFolder [] "x"]).nbElement
      = cnt anyKind (FS.run initFS [.mkFolder [] "x"]).root) ∧
    ((initFS.createFolder [] "x").2 = .ok ∧
     (initFS.createFolder [] "x").1.nbElement = initFS.nbElement + 1 ∧
     (initFS.createFolder [] "x").1.nbFolder = initFS.nbFolder + 1 ∧
     (initFS.createFolder [] "x").1.nbFile = initFS.nbFile ∧
     (initFS.createFolder [] "x").1.nbShortcut = initFS.nbShortcut) ∧
    ((initFS.createShortcut [] "x" []).2 = .ok ∧
     (initFS.createShortcut [] "x" []).1.nbElement = initFS.nbElement + 1 ∧
     (initFS.createShortcut [] "x" []).1.nbShortcut = initFS.nbShortcut + 1 ∧
     (initFS.createShortcut [] "x" []).1.nbFile = initFS.nbFile ∧
     (initFS.createShortcut [] "x" []).1.nbFolder = initFS.nbFolder) ∧
    ((initFS.createFile [] "x" 5).2 = .ok ∧
     (initFS.createFile [] "x" 5).1.nbElement = initFS.nbElement + 1 ∧
     (initFS.createFile [] "x" 5).1.nbFile = initFS.nbFile + 1 ∧
     (initFS.createFile [] "x" 5).1.nbFolder = initFS.nbFolder ∧
     (initFS.createFile [] "x" 5).1.nbShortcut = initFS.nbShortcut) ∧
    (((FS.run initFS [.mkFolder [] "x"]).removeElement [] "x").2 = .ok ∧
     ((FS.run initFS [.mkFolder [] "x"]).removeElement [] "x").1.nbElement
       = (FS.run initFS [.mkFolder [] "x"]).nbElement
           - cnt anyKind (.folder 1 "x" none .nil) ∧
     ((FS.run initFS [.mkFolder [] "x"]).removeElement [] "x").1.nbFile
       = (FS.run initFS [.mkFolder [] "x"]).nbFile - cnt isKFile (.folder 1 "x" none .nil) ∧
     ((FS.run initFS [.mkFolder [] "x"]).removeElement [] "x").1.nbFolder
       = (FS.run initFS [.mkFolder [] "x"]).nbFolder
           - cnt isKFolder (.folder 1 "x" none .nil) ∧
     ((FS.run initFS [.mkFolder [] "x"]).removeElement [] "x").1.nbShortcut
       = (FS.run initFS [.mkFolder [] "x"]).nbShortcut
           - cnt isKShortcut (.folder 1 "x" none .nil)) :=
  ⟨(c7_per_type_instance_counters [.mkFolder [] "x"] [] "x" 5 []
      (.folder 1 "x" none .nil) (.folder 0 "/r1" none .nil)).1.1,
   (c7_per_type_instance_counters [] [] "x" 5 [] (.folder 1 "x" none .nil)
      (.folder 0 "/r1" none .nil)).2.2.1 initFS (by decide) (by decide) (by decide),
   (c7_per_type_instance_counters [] [] "x" 5 [] (.folder 1 "x" none .nil)
      (.folder 0 "/r1" none .nil)).2.2.2.1 initFS (by decide) (by rfl) (by decide) (by decide),
   (c7_per_type_instance_counters [] [] "x" 5 [] (.folder 1 "x" none .nil)
      (.folder 0 "/r1" none .nil)).2.2.2.2.1 initFS (by decide) (by decide) (by decide)
      (by decide),
   (c7_per_type_instance_counters [] [] "x" 5 [] (.folder 1 "x" none .nil)
      (.folder 0 "/r1" none .nil)).2.2.2.2.2 (FS.run initFS [.mkFolder [] "x"])
      (by decide) (by rfl)⟩

/-- Witness for C9 at a concrete state: the root holds file "f" of 10
bytes with the root cache (stale, holding 0) set; creating folder "d",
a shortcut "d" on the root, or a 0-byte file "d" keeps `getSize` of the
root at its previous value and keeps the cache. -/
theorem c9_witness :
    isFolderAt (FS.run initFS [.mkFile [] "f" 10]).root [] = true ∧
    (findChildAt (FS.run initFS [.mkFile [] "f" 10]).root []
        (keyFromName "d")).isSome = false ∧
    (elementAt (FS.run initFS [.mkFile [] "f" 10]).root []).isSome = true ∧
    (((FS.run initFS [.mkFile [] "f" 10]).createFolder [] "d").2 = .ok ∧
     sizeValAt ((FS.run initFS [.mkFile [] "f" 10]).createFolder [] "d").1.root []
       = sizeValAt (FS.run initFS [.mkFile [] "f" 10]).root [] ∧
     cacheAt ((FS.run initFS [.mkFile [] "f" 10]).createFolder [] "d").1.root []
       = cacheAt (FS.run initFS [.mkFile [] "f" 10]).root []) ∧
    (((FS.run initFS [.mkFile [] "f" 10]).createShortcut [] "d" []).2 = .ok ∧
     sizeValAt ((FS.run initFS [.mkFile [] "f" 10]).createShortcut [] "d" []).1.root []
       = sizeValAt (FS.run initFS [.mkFile [] "f" 10]).root [] ∧
     cacheAt ((FS.run initFS [.mkFile [] "f" 10]).createShortcut [] "d" []).1.root []
       = cacheAt (FS.run initFS [.mkFile [] "f" 10]).root []) ∧
    (((FS.run initFS [.mkFile [] "f" 10]).createFile [] "d" 0).2 = .ok ∧
     sizeValAt ((FS.run initFS [.mkFile [] "f" 10]).createFile [] "d" 0).1.root []
       = sizeValAt (FS.run initFS [.mkFile [] "f" 10]).root [] ∧
     cacheAt ((FS.run initFS [.mkFile [] "f" 10]).createFile [] "d" 0).1.root []
       = some (some 0)) :=
  ⟨by decide, by decide, by decide,
   (c9_zero_size_creates_preserve_sizes (FS.run initFS [.mkFile [] "f" 10]) [] "d" [] []
      (by decide) (by decide) (by decide) (by decide)).1,
   (c9_zero_size_creates_preserve_sizes (FS.run initFS [.mkFile [] "f" 10]) [] "d" [] []
      (by decide) (by decide) (by decide) (by decide)).2.1
      (.folder 0 "/r1" (some 0) (.cons "F" (.file 1 "f" 10) .nil)) (by rfl),
   ⟨(c9_zero_size_creates_preserve_sizes (FS.run initFS [.mkFile [] "f" 10]) [] "d" [] []
      (by decide) (by decide) (by decide) (by decide)).2.2.1,
    (c9_zero_size_creates_preserve_sizes (FS.run initFS [.mkFile [] "f" 10]) [] "d" [] []
      (by decide) (by decide) (by decide) (by decide)).2.2.2.1,
    (c9_zero_size_creates_preserve_sizes (FS.run initFS [.mkFile [] "f" 10]) [] "d" [] []
      (by decide) (by decide) (by decide) (by decide)).2.2.2.2 0 (by rfl)⟩⟩

/-- Witness for C10 at a concrete state: a shortcut "s" on the root is
created in the empty partition and its display resolves to "/r1". -/
theorem c10_witness :
    shortcutDisplayText (FS.run initFS []) 0 = " --> /r1" ∧
    ((FS.run initFS []).createShortcut [] "s" []).2 = .ok ∧
    findChildAt ((FS.run initFS []).createShortcut [] "s" []).1.root [] (keyFromName "s")
      = some (.shortcut (FS.run initFS []).nextId "s" 0) ∧
    shortcutDisplayText ((FS.run initFS []).createShortcut [] "s" []).1 0 = " --> /r1" :=
  ⟨(c10_shortcut_to_partition_root [] [] "s").1,
   ((c10_shortcut_to_partition_root [] [] "s").2 (by decide) (by decide) (by decide)).1,
   ((c10_shortcut_to_partition_root [] [] "s").2 (by decide) (by decide) (by decide)).2.1,
   ((c10_shortcut_to_partition_root [] [] "s").2 (by decide) (by decide) (by decide)).2.2⟩
